import Mathlib

/-!
# The PageRank engine of `openmp.c`

A shallow embedding of the numerical engine of `openmp.c`: the link-matrix
builder, the matrix and vector primitives, the convergence loop of `main` and
the ranking printed by `print_standings`.

* A `float` buffer is a `List K` over a linearly ordered field `K` (exact
  arithmetic). At `K = ℚ` every definition below evaluates; at `K = ℝ` the
  Euclidean norm has its square root.
* A read `buffer[i]` is `buffer.getD i 0`, a write `buffer[i] = x` is
  `buffer.set i x`; a counted `for` loop is `for_loop`, which threads the
  buffers through the iterations in index order. The OpenMP pragmas do not
  appear: the loops are embedded in their sequential order.
* The input file is the sequence of integers that `fscanf` reads from it.
* Where a claim is about which array a call modifies, the primitives are also
  given on a memory that holds every array by name (`addition_mem` and the
  like); they agree with the primitives on single buffers.
-/

namespace PageRank

/-! ## Definitions -/

/-- The counted loop `for (int i = 0; i < n; i++) body`, run on an explicit state. -/
def for_loop {σ : Type} (n : Nat) (body : Nat → σ → σ) (init : σ) : σ :=
  (List.range n).foldl (fun state i => body i state) init

/-- The constant `MAX_PAGES`. -/
def MAX_PAGES : Nat := 800

/-- The constant `MIN_PAGES`. -/
def MIN_PAGES : Nat := 2

/-- The constant `WEIGHT`, 0.15. -/
def WEIGHT (K : Type) [LinearOrderedField K] : K := 15 / 100

/-- The constant `ERROR`, 0.0001. -/
def ERROR (K : Type) [LinearOrderedField K] : K := 1 / 10000

/-- The ways `init_link_matrix` fails to produce a matrix: `fopen` returns
`NULL` (the process exits), `fscanf` meets the end of the input, or a
destination indexes a row outside the matrix (the last two are undefined
behaviour in C, the embedding stops there). -/
inductive InitError where
  | open_failed
  | read_failed
  | out_of_range
  deriving DecidableEq, Repr

section Engine

variable {K : Type} [LinearOrderedField K]

/-- The loop over the links of page `i` in `init_link_matrix`, with `count`
destinations left to read: each `page_num` read from the file sets
`link_matrix[page_num - 1][i] = 1 / (float) num_links`. The matrix is flat
row-major, so that entry is at `(page_num - 1) * num_pages + i`. -/
def read_links (num_pages i : Nat) (num_links : Int) :
    Nat → List Int → List K → Except InitError (List Int × List K)
  | 0, file, link_matrix => .ok (file, link_matrix)
  | _ + 1, [], _ => .error .read_failed
  | count + 1, page_num :: file, link_matrix =>
    if 1 ≤ page_num ∧ page_num ≤ (num_pages : Int) then
      read_links num_pages i num_links count file
        (link_matrix.set ((page_num - 1).toNat * num_pages + i) (1 / (num_links : K)))
    else .error .out_of_range

/-- The loop over the pages in `init_link_matrix`, with `remaining` pages left
and `i` the current page: reads `num_links`, then that many destinations. -/
def read_pages (num_pages : Nat) :
    Nat → Nat → List Int → List K → Except InitError (List K)
  | 0, _, _, link_matrix => .ok link_matrix
  | _ + 1, _, [], _ => .error .read_failed
  | remaining + 1, i, num_links :: file, link_matrix =>
    match read_links num_pages i num_links num_links.toNat file link_matrix with
    | .error e => .error e
    | .ok (file, link_matrix) => read_pages num_pages remaining (i + 1) file link_matrix

/-- The function `init_link_matrix`: zero every entry of the caller's buffer,
open the file (`none` is a file that cannot be opened), then fill the columns
page by page. -/
def init_link_matrix (file : Option (List Int)) (num_pages : Nat) (link_matrix : List K) :
    Except InitError (List K) :=
  let link_matrix := for_loop num_pages (fun i link_matrix =>
    for_loop num_pages (fun j link_matrix => link_matrix.set (i * num_pages + j) 0) link_matrix)
    link_matrix
  match file with
  | none => .error .open_failed
  | some file => read_pages num_pages num_pages 0 file link_matrix

/-- The function `scalar_multiplication`. -/
def scalar_multiplication (matrix : List K) (num_rows num_cols : Nat) (scalar : K) : List K :=
  let num_entries := num_rows * num_cols
  for_loop num_entries (fun i matrix => matrix.set i (matrix.getD i 0 * scalar)) matrix

/-- The function `column_multiplication`; it returns the `column` buffer, the
matrix is only read. The local array `product` has `num_cols` cells; the
cells the first loop does not write are indeterminate in C and read as 0 here,
and a write past its end (undefined in C) is dropped. -/
def column_multiplication (matrix : List K) (num_rows num_cols : Nat) (column : List K) :
    List K :=
  let product : List K := List.replicate num_cols 0
  let product := for_loop num_rows (fun i product =>
    let sum := for_loop num_cols
      (fun j sum => sum + matrix.getD (i * num_cols + j) 0 * column.getD j 0) 0
    product.set i sum) product
  for_loop num_cols (fun i column => column.set i (product.getD i 0)) column

/-- The function `addition`; it returns the `matrix1` buffer, `matrix2` is only read. -/
def addition (matrix1 matrix2 : List K) (num_rows num_cols : Nat) : List K :=
  let num_entries := num_rows * num_cols
  for_loop num_entries (fun i matrix1 => matrix1.set i (matrix1.getD i 0 + matrix2.getD i 0))
    matrix1

/-- The accumulation loop of `norm`: the value of `sum` when the loop ends. -/
def norm_sum (column : List K) (num_rows : Nat) : K :=
  for_loop num_rows (fun i sum => sum + column.getD i 0 ^ 2) 0

/-- The function `norm`, over the reals: `sqrt(sum)`. -/
noncomputable def norm (column : List ℝ) (num_rows : Nat) : ℝ :=
  Real.sqrt (norm_sum column num_rows)

/-- The loop test `norm(column, num_rows) > error` of `main`, decided on the
sum of squares without extracting the root (`norm_exceeds_iff` shows it is the
test on `norm`). -/
def norm_exceeds (column : List K) (num_rows : Nat) (error : K) : Bool :=
  decide (error < 0 ∨ error ^ 2 < norm_sum column num_rows)

/-- The initialisation loop of `main`: `mean_column` and `score_column`, every
entry `1 / (float) num_pages`. -/
def init_columns (num_pages : Nat) : List K × List K :=
  for_loop num_pages (fun i columns =>
    let entry : K := 1 / (num_pages : K)
    (columns.1.set i entry, columns.2.set i entry))
    (List.replicate num_pages 0, List.replicate num_pages 0)

/-- One execution of the body of the `do ... while` loop of `main`, on the
weighted `link_matrix` and `mean_column`: the new `score_column` and the
`score_diff` whose norm the loop tests. -/
def loop_body (link_matrix mean_column : List K) (num_pages : Nat) (score_column : List K) :
    List K × List K :=
  let score_diff : List K := List.replicate num_pages 0
  let score_diff := for_loop num_pages
    (fun i score_diff => score_diff.set i (score_column.getD i 0)) score_diff
  let score_column := column_multiplication link_matrix num_pages num_pages score_column
  let score_column := addition score_column mean_column num_pages 1
  let score_diff := scalar_multiplication score_diff num_pages 1 (-1)
  let score_diff := addition score_diff score_column num_pages 1
  (score_column, score_diff)

/-- The `do ... while (score_norm > ERROR)` loop of `main`, with a bound `fuel`
on the number of executions of the body. It returns the `score_column` on exit
and the number of executions of the body, or `none` when the bound is reached. -/
def convergence_loop (link_matrix mean_column : List K) (num_pages : Nat) (error : K) :
    Nat → List K → Option (List K × Nat)
  | 0, _ => none
  | fuel + 1, score_column =>
    let step := loop_body link_matrix mean_column num_pages score_column
    if norm_exceeds step.2 num_pages error then
      (convergence_loop link_matrix mean_column num_pages error fuel step.1).map
        (fun r => (r.1, r.2 + 1))
    else some (step.1, 1)

/-- The weighted link matrix of `main`:
`scalar_multiplication((float *)link_matrix, num_pages, num_pages, 1 - WEIGHT)`. -/
def weighted_matrix (num_pages : Nat) (weight : K) (link_matrix : List K) : List K :=
  scalar_multiplication link_matrix num_pages num_pages (1 - weight)

/-- The weighted mean column of `main`:
`scalar_multiplication(mean_column, num_pages, 1, WEIGHT)`. -/
def weighted_mean (num_pages : Nat) (weight : K) : List K :=
  scalar_multiplication (init_columns num_pages).1 num_pages 1 weight

/-- The section `CONVERGENCE LOOP` of `main`, for a page count, a damping
weight and an error bound: initialise the columns, weigh the link matrix and
the mean column once, run the loop. The result is the `score_column` handed to
`print_standings`, with the number of iterations. -/
def solver (num_pages : Nat) (weight error : K) (link_matrix : List K) (fuel : Nat) :
    Option (List K × Nat) :=
  convergence_loop (weighted_matrix num_pages weight link_matrix)
    (weighted_mean num_pages weight) num_pages error fuel (init_columns num_pages).2

/-- The function `main` up to the call of `print_standings`: the matrix is
built for `MAX_PAGES` pages in the (uninitialised) buffer `link_matrix`, and
the solver runs with `WEIGHT` and `ERROR`. -/
def main (file : Option (List Int)) (link_matrix : List K) (fuel : Nat) :
    Except InitError (Option (List K × Nat)) :=
  match init_link_matrix file MAX_PAGES link_matrix with
  | .error e => .error e
  | .ok link_matrix => .ok (solver MAX_PAGES (WEIGHT K) (ERROR K) link_matrix fuel)

/-- The `score_column` of `main` after `k` executions of the loop body. -/
def score_after (num_pages : Nat) (weight : K) (link_matrix : List K) : Nat → List K
  | 0 => (init_columns num_pages).2
  | k + 1 => (loop_body (weighted_matrix num_pages weight link_matrix)
      (weighted_mean num_pages weight) num_pages
      (score_after num_pages weight link_matrix k)).1

/-- The `score_diff` of `main` at the end of execution `k + 1` of the loop body. -/
def diff_after (num_pages : Nat) (weight : K) (link_matrix : List K) (k : Nat) : List K :=
  (loop_body (weighted_matrix num_pages weight link_matrix)
    (weighted_mean num_pages weight) num_pages
    (score_after num_pages weight link_matrix k)).2

/-- The input file of a link specification: for each page in order, the
number of its links, then its 1-based destinations. This is the order in which
`init_link_matrix` reads. -/
def link_file : List (List Int) → List Int
  | [] => []
  | links :: pages => (links.length : Int) :: (links ++ link_file pages)

/-- The buffer after the writes `link_matrix[page_num - 1][i] = v` for the
destinations `page_num` of one page, in the order read. -/
def write_links (n i : Nat) (v : K) (links : List Int) (m : List K) : List K :=
  links.foldl (fun m p => m.set ((p - 1).toNat * n + i) v) m

/-- A line printed by `print_standings`, `"%d. Page %d: %f\n"`: the rank
`i + 1`, the page `page_num + 1` and the score `max_score`. -/
structure Standing (K : Type) where
  rank : Int
  page : Int
  score : K
  deriving DecidableEq

/-- The inner loop of `print_standings`: from `max_score = -1.0` and
`page_num = -1`, the first largest entry above `-1.0` and its index. The
result is the pair `(max_score, page_num)`. -/
def select_max (score_column : List K) (num_pages : Nat) : K × Int :=
  for_loop num_pages (fun j state =>
    if score_column.getD j 0 > state.1 then (score_column.getD j 0, (j : Int)) else state)
    (-1, -1)

/-- One execution of the body of the outer loop of `print_standings`, at
index `i`, on the buffer and the lines printed so far. When no entry is above
`-1.0` the write `score_column[-1] = 0` (undefined in C) is dropped. -/
def standings_step (num_pages i : Nat) (state : List K × List (Standing K)) :
    List K × List (Standing K) :=
  let selected := select_max state.1 num_pages
  let max_score := selected.1
  let page_num := selected.2
  let score_column :=
    if 0 ≤ page_num then state.1.set page_num.toNat 0 else state.1
  (score_column, state.2 ++ [⟨(i : Int) + 1, page_num + 1, max_score⟩])

/-- The function `print_standings`: the `score_column` buffer when it returns
and the lines printed, in order. -/
def print_standings (score_column : List K) (num_pages : Nat) : List K × List (Standing K) :=
  for_loop num_pages (standings_step num_pages) (score_column, [])

/-- The write `p[i] = x` in a memory that holds the content of each array by
its name. -/
def mem_write {P : Type} [DecidableEq P] (mem : P → List K) (p : P) (i : Nat) (x : K) :
    P → List K :=
  Function.update mem p ((mem p).set i x)

/-- The function `scalar_multiplication` on the memory: `matrix` names the
array passed. -/
def scalar_multiplication_mem {P : Type} [DecidableEq P] (mem : P → List K) (matrix : P)
    (num_rows num_cols : Nat) (scalar : K) : P → List K :=
  let num_entries := num_rows * num_cols
  for_loop num_entries (fun i mem => mem_write mem matrix i ((mem matrix).getD i 0 * scalar)) mem

/-- The function `column_multiplication` on the memory: `matrix` and `column`
name the arrays passed; `product` is local to the call. -/
def column_multiplication_mem {P : Type} [DecidableEq P] (mem : P → List K) (matrix : P)
    (num_rows num_cols : Nat) (column : P) : P → List K :=
  let product : List K := List.replicate num_cols 0
  let product := for_loop num_rows (fun i product =>
    let sum := for_loop num_cols
      (fun j sum => sum + (mem matrix).getD (i * num_cols + j) 0 * (mem column).getD j 0) 0
    product.set i sum) product
  for_loop num_cols (fun i mem => mem_write mem column i (product.getD i 0)) mem

/-- The function `addition` on the memory: `matrix1` and `matrix2` name the
arrays passed, which may be the same array. -/
def addition_mem {P : Type} [DecidableEq P] (mem : P → List K) (matrix1 matrix2 : P)
    (num_rows num_cols : Nat) : P → List K :=
  let num_entries := num_rows * num_cols
  for_loop num_entries
    (fun i mem => mem_write mem matrix1 i ((mem matrix1).getD i 0 + (mem matrix2).getD i 0)) mem

/-- The arrays of `main` that the convergence loop uses. -/
inductive Buffer where
  | link_matrix
  | mean_column
  | score_column
  | score_diff
  deriving DecidableEq

/-- One execution of the body of the `do ... while` loop of `main` on the
memory of its four arrays; `score_diff` is declared anew in the body. -/
def loop_body_mem (mem : Buffer → List K) (num_pages : Nat) : Buffer → List K :=
  let mem := Function.update mem Buffer.score_diff (List.replicate num_pages 0)
  let mem := for_loop num_pages
    (fun i mem => mem_write mem Buffer.score_diff i ((mem Buffer.score_column).getD i 0)) mem
  let mem := column_multiplication_mem mem Buffer.link_matrix num_pages num_pages
    Buffer.score_column
  let mem := addition_mem mem Buffer.score_column Buffer.mean_column num_pages 1
  let mem := scalar_multiplication_mem mem Buffer.score_diff num_pages 1 (-1)
  addition_mem mem Buffer.score_diff Buffer.score_column num_pages 1

/-- The memory of `main` after `k` executions of the loop body. -/
def memory_after (mem : Buffer → List K) (num_pages : Nat) : Nat → Buffer → List K
  | 0 => mem
  | k + 1 => loop_body_mem (memory_after mem num_pages k) num_pages

/-- The link matrix of the five-page star (page 1 links to page 2, pages 2 to
5 link to page 1), row-major, as `init_link_matrix` builds it. -/
def star_matrix (K : Type) [LinearOrderedField K] : List K :=
  [0, 1, 1, 1, 1,
   1, 0, 0, 0, 0,
   0, 0, 0, 0, 0,
   0, 0, 0, 0, 0,
   0, 0, 0, 0, 0]

end Engine

/-! ## Loops and buffers -/

section Loops

theorem for_loop_zero {σ : Type} (body : Nat → σ → σ) (init : σ) :
    for_loop 0 body init = init := rfl

theorem for_loop_succ {σ : Type} (n : Nat) (body : Nat → σ → σ) (init : σ) :
    for_loop (n + 1) body init = body n (for_loop n body init) := by
  simp [for_loop, List.range_succ]

/-- A loop that writes cell `i` at iteration `i` keeps the length of the buffer. -/
theorem for_loop_set_length {α : Type} (n : Nat) (g : Nat → List α → α) (m : List α) :
    (for_loop n (fun i m => m.set i (g i m)) m).length = m.length := by
  induction n with
  | zero => rfl
  | succ n ih => rw [for_loop_succ, List.length_set, ih]

variable {K : Type} [LinearOrderedField K]

/-- An accumulation loop computes the finite sum of its summands. -/
theorem for_loop_sum (n : Nat) (f : Nat → K) :
    for_loop n (fun j sum => sum + f j) 0 = ∑ j in Finset.range n, f j := by
  induction n with
  | zero => simp [for_loop_zero]
  | succ n ih => rw [for_loop_succ, ih, Finset.sum_range_succ]

/-- A loop over a pair of buffers that updates each on its own is a pair of loops. -/
theorem for_loop_pair {α β : Type} (n : Nat) (f : Nat → α → α) (g : Nat → β → β) (a : α) (b : β) :
    for_loop n (fun i c => (f i c.1, g i c.2)) (a, b) = (for_loop n f a, for_loop n g b) := by
  induction n with
  | zero => rfl
  | succ n ih => rw [for_loop_succ, ih, for_loop_succ, for_loop_succ]

theorem getD_set (m : List K) (a x : Nat) (v : K) :
    (m.set a v).getD x 0 = if a = x ∧ a < m.length then v else m.getD x 0 := by
  simp only [List.getD_eq_getElem?_getD, List.getElem?_set]
  by_cases h : a = x
  · subst h
    by_cases h2 : a < m.length
    · simp [h2]
    · simp [h2, List.getElem?_eq_none (not_lt.mp h2)]
  · simp [h]

theorem getD_of_length_le (m : List K) (x : Nat) (h : m.length ≤ x) : m.getD x 0 = 0 := by
  simp [List.getD_eq_getElem?_getD, List.getElem?_eq_none h]

theorem getD_replicate_zero (n x : Nat) : (List.replicate n (0 : K)).getD x 0 = 0 := by
  by_cases h : x < n
  · simp [List.getD_eq_getElem?_getD, List.getElem?_replicate, h]
  · simp [List.getD_eq_getElem?_getD, List.getElem?_replicate, h]

/-- A loop that rewrites cell `i` from its own old value at iteration `i`:
the cells below the bound are each rewritten once, the others are kept. -/
theorem for_loop_set_getD (n : Nat) (h : Nat → K → K) (m : List K) (x : Nat) :
    (for_loop n (fun i m => m.set i (h i (m.getD i 0))) m).getD x 0 =
      if x < n ∧ x < m.length then h x (m.getD x 0) else m.getD x 0 := by
  induction n with
  | zero => simp [for_loop_zero]
  | succ n ih =>
    rw [for_loop_succ, getD_set, for_loop_set_length n (fun i m => h i (m.getD i 0)) m]
    by_cases hx : n = x
    · subst hx
      rw [ih]
      by_cases hl : n < m.length
      · simp [hl]
      · simp [hl]
    · rw [ih]
      have : x < n + 1 ↔ x < n := by omega
      simp [hx, this]

theorem sum_eq_sum_getD (l : List K) : l.sum = ∑ i in Finset.range l.length, l.getD i 0 := by
  induction l with
  | nil => simp
  | cons a l ih =>
    rw [List.length_cons, Finset.sum_range_succ', List.sum_cons, ih]
    simp [add_comm]

theorem ext_getD (l₁ l₂ : List K) (hlen : l₁.length = l₂.length)
    (h : ∀ x, x < l₁.length → l₁.getD x 0 = l₂.getD x 0) : l₁ = l₂ := by
  apply List.ext_getElem hlen
  intro x h₁ h₂
  have := h x h₁
  rwa [List.getD_eq_getElem _ _ h₁, List.getD_eq_getElem _ _ h₂] at this

end Loops

/-! ## The primitives, entry by entry -/

section Primitives

variable {K : Type} [LinearOrderedField K]

theorem scalar_multiplication_length (matrix : List K) (r c : Nat) (scalar : K) :
    (scalar_multiplication matrix r c scalar).length = matrix.length :=
  for_loop_set_length (r * c) (fun i m => m.getD i 0 * scalar) matrix

theorem scalar_multiplication_getD (matrix : List K) (r c : Nat) (scalar : K) (x : Nat) :
    (scalar_multiplication matrix r c scalar).getD x 0 =
      if x < r * c then matrix.getD x 0 * scalar else matrix.getD x 0 := by
  unfold scalar_multiplication
  rw [for_loop_set_getD (r * c) (fun _ v => v * scalar) matrix x]
  by_cases hx : x < r * c
  · by_cases hl : x < matrix.length
    · simp [hx, hl]
    · rw [if_neg (fun h => hl h.2), if_pos hx, getD_of_length_le matrix x (not_lt.mp hl),
        zero_mul]
  · simp [hx]

theorem addition_length (matrix1 matrix2 : List K) (r c : Nat) :
    (addition matrix1 matrix2 r c).length = matrix1.length :=
  for_loop_set_length (r * c) (fun i m => m.getD i 0 + matrix2.getD i 0) matrix1

theorem addition_getD (matrix1 matrix2 : List K) (r c : Nat) (x : Nat) :
    (addition matrix1 matrix2 r c).getD x 0 =
      if x < r * c ∧ x < matrix1.length then matrix1.getD x 0 + matrix2.getD x 0
      else matrix1.getD x 0 := by
  unfold addition
  rw [for_loop_set_getD (r * c) (fun i v => v + matrix2.getD i 0) matrix1 x]

theorem column_multiplication_length (matrix : List K) (r c : Nat) (column : List K) :
    (column_multiplication matrix r c column).length = column.length := by
  unfold column_multiplication
  exact for_loop_set_length c _ column

theorem column_multiplication_getD (matrix : List K) (r c : Nat) (column : List K) (x : Nat) :
    (column_multiplication matrix r c column).getD x 0 =
      if x < c ∧ x < column.length then
        (if x < r then ∑ j in Finset.range c, matrix.getD (x * c + j) 0 * column.getD j 0
         else 0)
      else column.getD x 0 := by
  unfold column_multiplication
  simp only [for_loop_sum]
  rw [for_loop_set_getD c (fun i _ => (for_loop r (fun i product => product.set i
    (∑ j in Finset.range c, matrix.getD (i * c + j) 0 * column.getD j 0))
    (List.replicate c 0)).getD i 0) column x]
  by_cases hx : x < c ∧ x < column.length
  · rw [if_pos hx, if_pos hx]
    rw [for_loop_set_getD r (fun i _ => ∑ j in Finset.range c,
      matrix.getD (i * c + j) 0 * column.getD j 0) (List.replicate c 0) x]
    by_cases hr : x < r
    · simp [hr, hx.1]
    · simp [hr, getD_replicate_zero]
  · rw [if_neg hx, if_neg hx]

theorem norm_sum_eq (column : List K) (n : Nat) :
    norm_sum column n = ∑ i in Finset.range n, column.getD i 0 ^ 2 :=
  for_loop_sum n (fun i => column.getD i 0 ^ 2)

theorem init_columns_eq (n : Nat) :
    (init_columns n : List K × List K) =
      (for_loop n (fun i m => m.set i (1 / (n : K))) (List.replicate n 0),
       for_loop n (fun i m => m.set i (1 / (n : K))) (List.replicate n 0)) := by
  unfold init_columns
  exact for_loop_pair n (fun i (m : List K) => m.set i (1 / (n : K)))
    (fun i (m : List K) => m.set i (1 / (n : K))) _ _

theorem init_columns_fst_length (n : Nat) : (init_columns n : List K × List K).1.length = n := by
  rw [init_columns_eq]
  simp only
  rw [for_loop_set_length n (fun _ _ => (1 / (n : K))), List.length_replicate]

theorem init_columns_snd_length (n : Nat) : (init_columns n : List K × List K).2.length = n := by
  rw [init_columns_eq]
  simp only
  rw [for_loop_set_length n (fun _ _ => (1 / (n : K))), List.length_replicate]

theorem init_columns_fst_getD (n x : Nat) :
    (init_columns n : List K × List K).1.getD x 0 = if x < n then 1 / (n : K) else 0 := by
  rw [init_columns_eq]
  simp only
  rw [for_loop_set_getD n (fun _ _ => (1 / (n : K))) (List.replicate n 0) x]
  simp [getD_replicate_zero]

theorem init_columns_snd_getD (n x : Nat) :
    (init_columns n : List K × List K).2.getD x 0 = if x < n then 1 / (n : K) else 0 := by
  rw [init_columns_eq]
  simp only
  rw [for_loop_set_getD n (fun _ _ => (1 / (n : K))) (List.replicate n 0) x]
  simp [getD_replicate_zero]

end Primitives

/-! ## The loop body of `main` -/

section Body

variable {K : Type} [LinearOrderedField K]

theorem loop_body_fst_length (W mean : List K) (n : Nat) (s : List K) :
    (loop_body W mean n s).1.length = s.length := by
  unfold loop_body
  simp only
  rw [addition_length, column_multiplication_length]

theorem loop_body_fst_getD (W mean : List K) (n : Nat) (s : List K) (hs : s.length = n)
    (x : Nat) :
    (loop_body W mean n s).1.getD x 0 =
      if x < n then (∑ j in Finset.range n, W.getD (x * n + j) 0 * s.getD j 0) + mean.getD x 0
      else 0 := by
  unfold loop_body
  simp only
  rw [addition_getD, column_multiplication_length, column_multiplication_getD, hs, mul_one]
  by_cases hx : x < n
  · simp [hx]
  · simp only [hx, false_and, and_false, if_false]
    exact getD_of_length_le s x (by omega)

theorem loop_body_snd_length (W mean : List K) (n : Nat) (s : List K) :
    (loop_body W mean n s).2.length = n := by
  unfold loop_body
  simp only
  rw [addition_length, scalar_multiplication_length,
    for_loop_set_length n (fun i _ => s.getD i 0), List.length_replicate]

theorem loop_body_snd_getD (W mean : List K) (n : Nat) (s : List K) (x : Nat) :
    (loop_body W mean n s).2.getD x 0 =
      if x < n then (loop_body W mean n s).1.getD x 0 - s.getD x 0 else 0 := by
  have h1 : (loop_body W mean n s).2 =
      addition (scalar_multiplication (for_loop n (fun i score_diff =>
        score_diff.set i (s.getD i 0)) (List.replicate n 0)) n 1 (-1))
        (loop_body W mean n s).1 n 1 := rfl
  rw [h1, addition_getD, scalar_multiplication_length, scalar_multiplication_getD,
    for_loop_set_length n (fun i _ => s.getD i 0), List.length_replicate, mul_one,
    for_loop_set_getD n (fun i _ => s.getD i 0) (List.replicate n 0) x, List.length_replicate]
  by_cases hx : x < n
  · simp only [hx, and_self, if_true]
    ring
  · simp [hx, getD_replicate_zero]

theorem weighted_matrix_getD (n : Nat) (d : K) (M : List K) (i j : Nat) (hi : i < n)
    (hj : j < n) :
    (weighted_matrix n d M).getD (i * n + j) 0 = M.getD (i * n + j) 0 * (1 - d) := by
  unfold weighted_matrix
  rw [scalar_multiplication_getD, if_pos]
  calc i * n + j < i * n + n := by omega
    _ = (i + 1) * n := by ring
    _ ≤ n * n := Nat.mul_le_mul_right n hi

theorem weighted_mean_getD (n : Nat) (d : K) (x : Nat) :
    (weighted_mean n d).getD x 0 = if x < n then 1 / (n : K) * d else 0 := by
  unfold weighted_mean
  rw [scalar_multiplication_getD, init_columns_fst_getD, mul_one]
  by_cases hx : x < n
  · simp [hx]
  · simp [hx]

/-- One execution of the loop body on the weighted buffers of `main`,
entry by entry. -/
theorem weighted_step_getD (n : Nat) (d : K) (M s : List K) (hs : s.length = n) (i : Nat)
    (hi : i < n) :
    (loop_body (weighted_matrix n d M) (weighted_mean n d) n s).1.getD i 0 =
      (1 - d) * (∑ j in Finset.range n, M.getD (i * n + j) 0 * s.getD j 0)
        + d * (1 / (n : K)) := by
  rw [loop_body_fst_getD _ _ n s hs, if_pos hi, weighted_mean_getD, if_pos hi, Finset.mul_sum]
  congr 1
  · apply Finset.sum_congr rfl
    intro j hj
    rw [weighted_matrix_getD n d M i j hi (Finset.mem_range.mp hj)]
    ring
  · ring

theorem score_after_length (n : Nat) (d : K) (M : List K) (k : Nat) :
    (score_after n d M k).length = n := by
  induction k with
  | zero => exact init_columns_snd_length n
  | succ k ih =>
    show (loop_body _ _ n (score_after n d M k)).1.length = n
    rw [loop_body_fst_length, ih]

theorem score_after_zero_getD (n : Nat) (d : K) (M : List K) (i : Nat) :
    (score_after n d M 0).getD i 0 = if i < n then 1 / (n : K) else 0 :=
  init_columns_snd_getD n i

theorem score_after_succ_getD (n : Nat) (d : K) (M : List K) (k i : Nat) (hi : i < n) :
    (score_after n d M (k + 1)).getD i 0 =
      (1 - d) * (∑ j in Finset.range n, M.getD (i * n + j) 0 * (score_after n d M k).getD j 0)
        + d * (1 / (n : K)) :=
  weighted_step_getD n d M _ (score_after_length n d M k) i hi

theorem diff_after_length (n : Nat) (d : K) (M : List K) (k : Nat) :
    (diff_after n d M k).length = n :=
  loop_body_snd_length _ _ n _

theorem diff_after_getD (n : Nat) (d : K) (M : List K) (k i : Nat) (hi : i < n) :
    (diff_after n d M k).getD i 0 =
      (score_after n d M (k + 1)).getD i 0 - (score_after n d M k).getD i 0 := by
  unfold diff_after
  rw [loop_body_snd_getD, if_pos hi]
  rfl

theorem norm_sum_diff_after (n : Nat) (d : K) (M : List K) (k : Nat) :
    norm_sum (diff_after n d M k) n =
      ∑ i in Finset.range n,
        ((score_after n d M (k + 1)).getD i 0 - (score_after n d M k).getD i 0) ^ 2 := by
  rw [norm_sum_eq]
  apply Finset.sum_congr rfl
  intro i hi
  rw [diff_after_getD n d M k i (Finset.mem_range.mp hi)]

theorem norm_sum_nonneg (column : List K) (n : Nat) : 0 ≤ norm_sum column n := by
  rw [norm_sum_eq]
  exact Finset.sum_nonneg (fun i _ => sq_nonneg _)

/-- The test of the loop is the test `norm(column, num_rows) > error` on the
square root. -/
theorem norm_exceeds_iff (column : List ℝ) (n : Nat) (error : ℝ) :
    norm_exceeds column n error = true ↔ error < norm column n := by
  unfold norm_exceeds norm
  rw [decide_eq_true_iff]
  by_cases h : error < 0
  · simp only [h, true_or, true_iff]
    exact lt_of_lt_of_le h (Real.sqrt_nonneg _)
  · simp only [h, false_or]
    exact (Real.lt_sqrt (not_lt.mp h)).symm

theorem norm_exceeds_eq_false_iff (column : List ℝ) (n : Nat) (error : ℝ) :
    norm_exceeds column n error = false ↔ norm column n ≤ error := by
  rw [← not_lt, ← norm_exceeds_iff, Bool.not_eq_true]

end Body

/-! ## The link-matrix builder -/

section Builder

variable {K : Type} [LinearOrderedField K]

theorem for_loop_length {α : Type} (n : Nat) (body : Nat → List α → List α)
    (hbody : ∀ i m, (body i m).length = m.length) (m : List α) :
    (for_loop n body m).length = m.length := by
  induction n with
  | zero => rfl
  | succ n ih => rw [for_loop_succ, hbody, ih]

/-- The inner zeroing loop clears the cells of row `i` below column `c`. -/
theorem zero_row_getD (n i c : Nat) (m : List K) (x : Nat) :
    (for_loop c (fun j m => m.set (i * n + j) 0) m).getD x 0 =
      if i * n ≤ x ∧ x < i * n + c then 0 else m.getD x 0 := by
  induction c with
  | zero =>
    rw [for_loop_zero, if_neg]
    omega
  | succ c ih =>
    rw [for_loop_succ, getD_set, ih,
      for_loop_length c (fun j m => m.set (i * n + j) 0) (fun _ _ => List.length_set ..)]
    by_cases hx : i * n + c = x
    · subst hx
      by_cases hl : i * n + c < m.length
      · simp [hl]
      · have h1 : ¬ (i * n + c < i * n + c) := lt_irrefl _
        simp only [hl, and_false, if_false, h1]
        rw [getD_of_length_le m _ (not_lt.mp hl)]
        simp
    · have h2 : (i * n ≤ x ∧ x < i * n + (c + 1)) ↔ (i * n ≤ x ∧ x < i * n + c) := by omega
      simp only [hx, false_and, if_false, h2]

/-- The zeroing loops of `init_link_matrix` clear the cells of the first `r` rows. -/
theorem zero_rows_getD (n r : Nat) (m : List K) (x : Nat) :
    (for_loop r (fun i m => for_loop n (fun j m => m.set (i * n + j) 0) m) m).getD x 0 =
      if x < r * n then 0 else m.getD x 0 := by
  induction r with
  | zero => simp [for_loop_zero]
  | succ r ih =>
    rw [for_loop_succ, zero_row_getD, ih]
    have h3 : (r + 1) * n = r * n + n := by ring
    by_cases h1 : x < r * n
    · have h2 : x < (r + 1) * n := by omega
      simp [h1, h2]
    · by_cases h2 : x < (r + 1) * n
      · have h4 : r * n ≤ x ∧ x < r * n + n := by omega
        simp [h2, h4]
      · have h4 : ¬ (r * n ≤ x ∧ x < r * n + n) := by omega
        simp [h1, h2, h4]

theorem zero_rows_length (n r : Nat) (m : List K) :
    (for_loop r (fun i m => for_loop n (fun j m => m.set (i * n + j) 0) m) m).length
      = m.length :=
  for_loop_length r _ (fun i m =>
    for_loop_length n (fun j m => m.set (i * n + j) 0) (fun _ _ => List.length_set ..) m) m

omit [LinearOrderedField K] in
theorem write_links_length (n i : Nat) (v : K) (links : List Int) (m : List K) :
    (write_links n i v links m).length = m.length := by
  induction links generalizing m with
  | nil => rfl
  | cons p links ih =>
    show (write_links n i v links _).length = _
    rw [ih, List.length_set]

theorem read_links_ok (n i : Nat) (k : Int) (links rest : List Int) (m : List K)
    (hl : ∀ p ∈ links, 1 ≤ p ∧ p ≤ (n : Int)) :
    read_links n i k links.length (links ++ rest) m
      = .ok (rest, write_links n i (1 / (k : K)) links m) := by
  induction links generalizing m with
  | nil => cases rest <;> rfl
  | cons p links ih =>
    have hp := hl p (List.mem_cons_self p links)
    show read_links n i k (links.length + 1) (p :: (links ++ rest)) m = _
    rw [read_links, if_pos hp, ih _ (fun q hq => hl q (List.mem_cons_of_mem p hq))]
    rfl

theorem flat_index_eq (n r c i : Nat) (p : Int) (hp : 1 ≤ p ∧ p ≤ (n : Int)) (hc : c < n)
    (hi : i < n) :
    (p - 1).toNat * n + i = r * n + c ↔ (c = i ∧ (r : Int) + 1 = p) := by
  obtain ⟨q, rfl⟩ : ∃ q : Nat, p = (q : Int) + 1 := ⟨(p - 1).toNat, by omega⟩
  have hq : ((q : Int) + 1 - 1).toNat = q := by simp
  rw [hq]
  constructor
  · intro h
    have h1 : q = r := by
      rcases Nat.lt_trichotomy q r with hlt | heq | hgt
      · exfalso
        have : (q + 1) * n ≤ r * n := Nat.mul_le_mul_right n hlt
        have h5 : (q + 1) * n = q * n + n := by ring
        omega
      · exact heq
      · exfalso
        have : (r + 1) * n ≤ q * n := Nat.mul_le_mul_right n hgt
        have h5 : (r + 1) * n = r * n + n := by ring
        omega
    subst h1
    exact ⟨by omega, rfl⟩
  · rintro ⟨rfl, h⟩
    have : r = q := by omega
    rw [this]

theorem write_links_getD (n i : Nat) (v : K) (links : List Int) (m : List K)
    (hm : m.length = n * n) (hi : i < n) (hl : ∀ p ∈ links, 1 ≤ p ∧ p ≤ (n : Int))
    (r c : Nat) (hc : c < n) :
    (write_links n i v links m).getD (r * n + c) 0 =
      if c = i ∧ ((r : Int) + 1) ∈ links then v else m.getD (r * n + c) 0 := by
  induction links generalizing m with
  | nil => simp [write_links]
  | cons p links ih =>
    have hp := hl p (List.mem_cons_self p links)
    show (write_links n i v links (m.set ((p - 1).toNat * n + i) v)).getD (r * n + c) 0 = _
    rw [ih _ (by rw [List.length_set, hm]) (fun q hq => hl q (List.mem_cons_of_mem p hq)),
      getD_set]
    have hflat := flat_index_eq n r c i p hp hc hi
    have hin : (p - 1).toNat * n + i < m.length := by
      rw [hm]
      have h1 : (p - 1).toNat < n := by omega
      calc (p - 1).toNat * n + i < (p - 1).toNat * n + n := by omega
        _ = ((p - 1).toNat + 1) * n := by ring
        _ ≤ n * n := Nat.mul_le_mul_right n h1
    by_cases h1 : c = i ∧ ((r : Int) + 1) ∈ links
    · simp [h1]
    · by_cases h2 : c = i ∧ (r : Int) + 1 = p
      · have h3 : c = i ∧ ((r : Int) + 1) ∈ p :: links :=
          ⟨h2.1, List.mem_cons.mpr (Or.inl h2.2)⟩
        rw [if_neg h1, if_pos ⟨hflat.mpr h2, hin⟩, if_pos h3]
      · have h3 : ¬ (c = i ∧ ((r : Int) + 1) ∈ p :: links) := by
          rintro ⟨h4, h5⟩
          rcases List.mem_cons.mp h5 with h6 | h6
          · exact h2 ⟨h4, h6⟩
          · exact h1 ⟨h4, h6⟩
        rw [if_neg h1, if_neg (fun h => h2 (hflat.mp h.1)), if_neg h3]

theorem read_pages_ok (n : Nat) (spec : List (List Int)) (rest : List Int) (i0 : Nat)
    (m : List K) (hlen : i0 + spec.length ≤ n) (hm : m.length = n * n)
    (hspec : ∀ links ∈ spec, ∀ p ∈ links, 1 ≤ p ∧ p ≤ (n : Int)) :
    ∃ M : List K, read_pages n spec.length i0 (link_file spec ++ rest) m = .ok M ∧
      M.length = n * n ∧
      ∀ r c, r < n → c < n → M.getD (r * n + c) 0 =
        if i0 ≤ c ∧ c < i0 + spec.length ∧ ((r : Int) + 1) ∈ spec.getD (c - i0) [] then
          1 / ((spec.getD (c - i0) []).length : K)
        else m.getD (r * n + c) 0 := by
  induction spec generalizing i0 m with
  | nil =>
    refine ⟨m, by cases rest <;> rfl, hm, ?_⟩
    intro r c _ _
    rw [if_neg]
    simp
  | cons links spec ih =>
    have hlinks : ∀ p ∈ links, 1 ≤ p ∧ p ≤ (n : Int) :=
      hspec links (List.mem_cons_self links spec)
    have hlen2 : i0 + 1 + spec.length ≤ n := by
      rw [List.length_cons] at hlen
      omega
    have hi0 : i0 < n := by omega
    obtain ⟨M, hM, hMlen, hMent⟩ := ih (i0 + 1)
      (write_links n i0 (1 / (((links.length : Nat) : Int) : K)) links m) hlen2
      (by rw [write_links_length, hm])
      (fun l hl => hspec l (List.mem_cons_of_mem links hl))
    refine ⟨M, ?_, hMlen, ?_⟩
    · show read_pages n (spec.length + 1) i0
        ((links.length : Int) :: (links ++ link_file spec) ++ rest) m = _
      rw [List.cons_append, List.append_assoc, read_pages, Int.toNat_ofNat,
        read_links_ok n i0 _ links _ m hlinks]
      exact hM
    · intro r c hr hc
      rw [hMent r c hr hc, write_links_getD n i0 _ links m hm hi0 hlinks r c hc]
      by_cases h1 : c = i0
      · subst h1
        have h2 : ¬ (c + 1 ≤ c ∧ c < c + 1 + spec.length ∧
            ((r : Int) + 1) ∈ spec.getD (c - (c + 1)) []) := by omega
        rw [if_neg h2]
        simp [Nat.sub_self]
      · by_cases h2 : i0 + 1 ≤ c ∧ c < i0 + 1 + spec.length
        · have h3 : c - i0 = (c - (i0 + 1)) + 1 := by omega
          have h4 : (links :: spec).getD (c - i0) [] = spec.getD (c - (i0 + 1)) [] := by
            rw [h3]
            rfl
          have h5 : i0 ≤ c ∧ c < i0 + (links :: spec).length := by
            rw [List.length_cons]
            omega
          rw [h4]
          simp only [h1, h2, h5, true_and, false_and, if_false]
        · have h5 : ¬ (i0 ≤ c ∧ c < i0 + (links :: spec).length) := by
            rw [List.length_cons]
            omega
          have h6 : ¬ (i0 + 1 ≤ c ∧ c < i0 + 1 + spec.length ∧
              ((r : Int) + 1) ∈ spec.getD (c - (i0 + 1)) []) := fun h => h2 ⟨h.1, h.2.1⟩
          have h7 : ¬ (i0 ≤ c ∧ c < i0 + (links :: spec).length ∧
              ((r : Int) + 1) ∈ (links :: spec).getD (c - i0) []) := fun h => h5 ⟨h.1, h.2.1⟩
          rw [if_neg h6, if_neg h7, if_neg (fun h => h1 h.1)]

/-- The matrix built by `init_link_matrix` from a link specification with
in-range destinations, entry by entry. -/
theorem init_link_matrix_ok (N : Nat) (spec : List (List Int)) (buffer : List K)
    (hN : spec.length = N) (hbuf : buffer.length = N * N)
    (hspec : ∀ links ∈ spec, ∀ p ∈ links, 1 ≤ p ∧ p ≤ (N : Int)) :
    ∃ M : List K, init_link_matrix (some (link_file spec)) N buffer = .ok M ∧
      M.length = N * N ∧
      ∀ i j, i < N → j < N → M.getD (i * N + j) 0 =
        if ((i : Int) + 1) ∈ spec.getD j [] then 1 / ((spec.getD j []).length : K) else 0 := by
  obtain ⟨M, hM, hMlen, hMent⟩ := read_pages_ok N spec [] 0
    (for_loop N (fun i m => for_loop N (fun j m => m.set (i * N + j) 0) m) buffer)
    (by omega) (by rw [zero_rows_length, hbuf]) hspec
  refine ⟨M, ?_, hMlen, ?_⟩
  · unfold init_link_matrix
    simp only
    rw [List.append_nil, hN] at hM
    exact hM
  · intro i j hi hj
    rw [hMent i j hi hj, zero_rows_getD]
    have h1 : i * N + j < N * N := by
      calc i * N + j < i * N + N := by omega
        _ = (i + 1) * N := by ring
        _ ≤ N * N := Nat.mul_le_mul_right N hi
    simp [h1, hN, hj]

end Builder

/-! ## Column sums of the built matrix -/

section ColumnSums

variable {K : Type} [LinearOrderedField K]

/-- The rows written by a page are as many as its distinct destinations. -/
theorem card_rows_written (N : Nat) (links : List Int)
    (hl : ∀ p ∈ links, 1 ≤ p ∧ p ≤ (N : Int)) :
    ((Finset.range N).filter (fun i : Nat => ((i : Int) + 1) ∈ links)).card
      = links.dedup.length := by
  rw [← List.card_toFinset]
  have hinj : Function.Injective (fun i : Nat => (i : Int) + 1) := by
    intro a b hab
    simp only at hab
    omega
  rw [← Finset.card_image_of_injective _ hinj]
  congr 1
  ext p
  simp only [Finset.mem_image, Finset.mem_filter, Finset.mem_range, List.mem_toFinset]
  constructor
  · rintro ⟨i, ⟨_, hmem⟩, rfl⟩
    exact hmem
  · intro hp
    have hr := hl p hp
    refine ⟨(p - 1).toNat, ⟨by omega, ?_⟩, by omega⟩
    have : (((p - 1).toNat : Nat) : Int) + 1 = p := by omega
    rw [this]
    exact hp

/-- A column whose entries are `1 / k` at the listed destinations and 0
elsewhere sums to the number of distinct destinations over `k`. -/
theorem column_sum_of_entries (N : Nat) (links : List Int)
    (hl : ∀ p ∈ links, 1 ≤ p ∧ p ≤ (N : Int)) (col : Nat → K)
    (hcol : ∀ i, i < N → col i = if ((i : Int) + 1) ∈ links then 1 / (links.length : K) else 0) :
    ∑ i in Finset.range N, col i = (links.dedup.length : K) / (links.length : K) := by
  rw [Finset.sum_congr rfl (fun i hi => hcol i (Finset.mem_range.mp hi)),
    Finset.sum_ite, Finset.sum_const, Finset.sum_const_zero, add_zero, card_rows_written N links hl,
    nsmul_eq_mul]
  ring

theorem getD_mem_of_lt (spec : List (List Int)) (j : Nat) (hj : j < spec.length) :
    spec.getD j [] ∈ spec := by
  rw [List.getD_eq_getElem _ _ hj]
  exact List.getElem_mem hj

/-- The sum of column `j` of the matrix built by `init_link_matrix`. -/
theorem built_column_sum (N : Nat) (spec : List (List Int)) (M : List K)
    (hN : spec.length = N) (hspec : ∀ links ∈ spec, ∀ p ∈ links, 1 ≤ p ∧ p ≤ (N : Int))
    (hM : ∀ i j, i < N → j < N → M.getD (i * N + j) 0 =
      if ((i : Int) + 1) ∈ spec.getD j [] then 1 / ((spec.getD j []).length : K) else 0)
    (j : Nat) (hj : j < N) :
    ∑ i in Finset.range N, M.getD (i * N + j) 0 =
      ((spec.getD j []).dedup.length : K) / ((spec.getD j []).length : K) :=
  column_sum_of_entries N (spec.getD j [])
    (hspec _ (getD_mem_of_lt spec j (by omega))) (fun i => M.getD (i * N + j) 0)
    (fun i hi => hM i j hi hj)

/-- With distinct destinations the column sums are 1, or 0 for a page
without links. -/
theorem built_column_sum_nodup (N : Nat) (spec : List (List Int)) (M : List K)
    (hN : spec.length = N) (hspec : ∀ links ∈ spec, ∀ p ∈ links, 1 ≤ p ∧ p ≤ (N : Int))
    (hnodup : ∀ links ∈ spec, links.Nodup)
    (hM : ∀ i j, i < N → j < N → M.getD (i * N + j) 0 =
      if ((i : Int) + 1) ∈ spec.getD j [] then 1 / ((spec.getD j []).length : K) else 0)
    (j : Nat) (hj : j < N) :
    ∑ i in Finset.range N, M.getD (i * N + j) 0 = if spec.getD j [] = [] then 0 else 1 := by
  rw [built_column_sum N spec M hN hspec hM j hj,
    List.Nodup.dedup (hnodup _ (getD_mem_of_lt spec j (by omega)))]
  by_cases h : spec.getD j [] = []
  · rw [if_pos h, h]
    simp
  · rw [if_neg h]
    have : ((spec.getD j []).length : K) ≠ 0 := by
      rw [Nat.cast_ne_zero]
      exact fun h0 => h (List.length_eq_zero.mp h0)
    exact div_self this

end ColumnSums

/-! ## The convergence loop -/

section Loop

variable {K : Type} [LinearOrderedField K]

/-- The loop returns after `j + 1` executions of the body exactly when the
test fails for the first time at execution `j + 1`, within the bound. -/
theorem convergence_loop_eq_some_iff (W mean : List K) (n : Nat) (ε : K) (fuel : Nat)
    (s0 result : List K) (k : Nat) :
    convergence_loop W mean n ε fuel s0 = some (result, k) ↔
      ∃ j, k = j + 1 ∧ j < fuel ∧
        result = (fun s => (loop_body W mean n s).1)^[j + 1] s0 ∧
        norm_exceeds (loop_body W mean n
          ((fun s => (loop_body W mean n s).1)^[j] s0)).2 n ε = false ∧
        ∀ i, i < j → norm_exceeds (loop_body W mean n
          ((fun s => (loop_body W mean n s).1)^[i] s0)).2 n ε = true := by
  induction fuel generalizing s0 k result with
  | zero => simp [convergence_loop]
  | succ fuel ih =>
    rw [convergence_loop]
    by_cases h : norm_exceeds (loop_body W mean n s0).2 n ε = true
    · simp only [h, if_true, Option.map_eq_some']
      constructor
      · rintro ⟨⟨r, k'⟩, hr, heq⟩
        simp only [Prod.mk.injEq] at heq
        obtain ⟨j, hk, hj, hres, hfalse, hall⟩ := (ih _ _ _).mp hr
        refine ⟨j + 1, by omega, by omega, ?_, ?_, ?_⟩
        · rw [← heq.1, hres, Function.iterate_succ_apply (n := j + 1)]
        · rw [Function.iterate_succ_apply]
          exact hfalse
        · intro i hi
          cases i with
          | zero => exact h
          | succ i =>
            rw [Function.iterate_succ_apply]
            exact hall i (by omega)
      · rintro ⟨j, hk, hj, hres, hfalse, hall⟩
        cases j with
        | zero =>
          rw [Function.iterate_zero, id] at hfalse
          rw [hfalse] at h
          exact absurd h (by simp)
        | succ j =>
          refine ⟨(result, j + 1), (ih _ _ _).mpr ⟨j, rfl, by omega, ?_, ?_, ?_⟩, ?_⟩
          · rw [hres, Function.iterate_succ_apply (n := j + 1)]
          · rw [Function.iterate_succ_apply] at hfalse
            exact hfalse
          · intro i hi
            have := hall (i + 1) (by omega)
            rw [Function.iterate_succ_apply] at this
            exact this
          · simp [hk]
    · have h' : norm_exceeds (loop_body W mean n s0).2 n ε = false := by simpa using h
      rw [h']
      simp only [Bool.false_eq_true, if_false, Option.some.injEq, Prod.mk.injEq]
      constructor
      · intro hh
        refine ⟨0, hh.2.symm, by omega, ?_, ?_, ?_⟩
        · rw [← hh.1]
          rfl
        · exact h'
        · intro i hi
          omega
      · intro hh
        obtain ⟨j, hk, hj, hres, hfalse, hall⟩ := hh
        cases j with
        | zero =>
          refine ⟨?_, hk.symm⟩
          rw [hres]
          rfl
        | succ j => exact absurd (hall 0 (by omega)) h

theorem score_after_eq_iterate (n : Nat) (d : K) (M : List K) (k : Nat) :
    score_after n d M k =
      (fun s => (loop_body (weighted_matrix n d M) (weighted_mean n d) n s).1)^[k]
        (init_columns n).2 := by
  induction k with
  | zero => rfl
  | succ k ih =>
    rw [Function.iterate_succ_apply', ← ih]
    rfl

/-- The solver returns after `j + 1` executions of the body exactly when
`score_diff` fails the test for the first time at execution `j + 1`. -/
theorem solver_eq_some_iff (n : Nat) (d ε : K) (M : List K) (fuel : Nat)
    (result : List K) (k : Nat) :
    solver n d ε M fuel = some (result, k) ↔
      ∃ j, k = j + 1 ∧ j < fuel ∧ result = score_after n d M (j + 1) ∧
        norm_exceeds (diff_after n d M j) n ε = false ∧
        ∀ i, i < j → norm_exceeds (diff_after n d M i) n ε = true := by
  unfold solver diff_after
  rw [convergence_loop_eq_some_iff]
  simp only [score_after_eq_iterate]

end Loop

/-! ## The claims -/

section Claims

/-- C1: for every page count `N` and every link specification in which page
`j` lists `k_j` destinations, all 1-based indices in `[1, N]`,
`init_link_matrix` returns a matrix `M` with `M[i][j] = 1 / k_j` if the list of
page `j` contains `i + 1`, and `M[i][j] = 0` otherwise; a page without links
has an all-zero column. -/
theorem init_link_matrix_entries {K : Type} [LinearOrderedField K] (N : Nat)
    (spec : List (List Int)) (buffer : List K)
    (hN : spec.length = N) (hbuf : buffer.length = N * N)
    (hspec : ∀ links ∈ spec, ∀ p ∈ links, 1 ≤ p ∧ p ≤ (N : Int)) :
    ∃ M : List K, init_link_matrix (some (link_file spec)) N buffer = .ok M ∧
      M.length = N * N ∧
      (∀ i j, i < N → j < N → M.getD (i * N + j) 0 =
        if ((i : Int) + 1) ∈ spec.getD j [] then 1 / ((spec.getD j []).length : K) else 0) ∧
      (∀ j, j < N → spec.getD j [] = [] → ∀ i, i < N → M.getD (i * N + j) 0 = 0) := by
  obtain ⟨M, hM, hlen, hent⟩ := init_link_matrix_ok N spec buffer hN hbuf hspec
  refine ⟨M, hM, hlen, hent, ?_⟩
  intro j hj hempty i hi
  rw [hent i j hi hj, hempty]
  simp

/-- C1 at the two-page cycle, over the rationals, from a buffer of arbitrary content. -/
theorem init_link_matrix_entries_witness :
    ([[2], [1]] : List (List Int)).length = 2 ∧ ([7, 7, 7, 7] : List ℚ).length = 2 * 2 ∧
    (∀ links ∈ ([[2], [1]] : List (List Int)), ∀ p ∈ links, 1 ≤ p ∧ p ≤ ((2 : Nat) : Int)) ∧
    ∃ M : List ℚ, init_link_matrix (some (link_file [[2], [1]])) 2 [7, 7, 7, 7] = .ok M ∧
      M.length = 2 * 2 ∧
      (∀ i j, i < 2 → j < 2 → M.getD (i * 2 + j) 0 =
        if ((i : Int) + 1) ∈ ([[2], [1]] : List (List Int)).getD j [] then
          1 / ((([[2], [1]] : List (List Int)).getD j []).length : ℚ) else 0) ∧
      (∀ j, j < 2 → ([[2], [1]] : List (List Int)).getD j [] = [] →
        ∀ i, i < 2 → M.getD (i * 2 + j) 0 = 0) :=
  ⟨rfl, rfl, by decide,
    init_link_matrix_entries 2 [[2], [1]] [7, 7, 7, 7] rfl rfl (by decide)⟩

/-- C2, as stated, fails: for `N = 2` with page 1 listing destination 2 twice
(count 2) and page 2 listing destination 1, all destinations are in `[1, 2]`,
page 1 has outbound links, and column 0 of the built matrix sums to 1/2. -/
theorem column_sum_repeated_destination :
    (MIN_PAGES ≤ 2 ∧ 2 ≤ MAX_PAGES) ∧ ([[2, 2], [1]] : List (List Int)).length = 2 ∧
    (∀ links ∈ ([[2, 2], [1]] : List (List Int)), ∀ p ∈ links, 1 ≤ p ∧ p ≤ ((2 : Nat) : Int)) ∧
    ([[2, 2], [1]] : List (List Int)).getD 0 [] ≠ [] ∧
    init_link_matrix (some (link_file [[2, 2], [1]])) 2 ([0, 0, 0, 0] : List ℚ)
      = .ok [0, 1, 1 / 2, 0] ∧
    ∑ i in Finset.range 2, ([0, 1, 1 / 2, 0] : List ℚ).getD (i * 2 + 0) 0 = 1 / 2 ∧
    ∑ i in Finset.range 2, ([0, 1, 1 / 2, 0] : List ℚ).getD (i * 2 + 0) 0 ≠ 1 := by
  refine ⟨by decide, rfl, by decide, by simp, ?_, ?_, ?_⟩
  · norm_num [init_link_matrix, for_loop, read_pages, read_links, link_file, List.range_succ]
  · norm_num [Finset.sum_range_succ]
  · norm_num [Finset.sum_range_succ]

/-- C2, amended: for every `N` in `[2, 800]` and every link specification whose
destinations are 1-based indices in `[1, N]`, distinct within each page, every
column of the matrix built by `init_link_matrix` sums to 1 if the page has a
link and to 0 if it has none. -/
theorem built_matrix_column_sums {K : Type} [LinearOrderedField K] (N : Nat)
    (spec : List (List Int)) (buffer : List K)
    (hmin : MIN_PAGES ≤ N) (hmax : N ≤ MAX_PAGES)
    (hN : spec.length = N) (hbuf : buffer.length = N * N)
    (hspec : ∀ links ∈ spec, ∀ p ∈ links, 1 ≤ p ∧ p ≤ (N : Int))
    (hnodup : ∀ links ∈ spec, links.Nodup) :
    ∃ M : List K, init_link_matrix (some (link_file spec)) N buffer = .ok M ∧
      ∀ j, j < N → ∑ i in Finset.range N, M.getD (i * N + j) 0 =
        if spec.getD j [] = [] then 0 else 1 := by
  have _ := hmin
  have _ := hmax
  obtain ⟨M, hM, _, hent⟩ := init_link_matrix_ok N spec buffer hN hbuf hspec
  exact ⟨M, hM, fun j hj => built_column_sum_nodup N spec M hN hspec hnodup hent j hj⟩

/-- C2 amended, at three pages of which the last has no link. -/
theorem built_matrix_column_sums_witness :
    MIN_PAGES ≤ 3 ∧ 3 ≤ MAX_PAGES ∧ ([[2, 3], [1], []] : List (List Int)).length = 3 ∧
    (List.replicate 9 (5 : ℚ)).length = 3 * 3 ∧
    (∀ links ∈ ([[2, 3], [1], []] : List (List Int)), ∀ p ∈ links,
      1 ≤ p ∧ p ≤ ((3 : Nat) : Int)) ∧
    (∀ links ∈ ([[2, 3], [1], []] : List (List Int)), links.Nodup) ∧
    ∃ M : List ℚ, init_link_matrix (some (link_file [[2, 3], [1], []])) 3
        (List.replicate 9 (5 : ℚ)) = .ok M ∧
      ∀ j, j < 3 → ∑ i in Finset.range 3, M.getD (i * 3 + j) 0 =
        if ([[2, 3], [1], []] : List (List Int)).getD j [] = [] then 0 else 1 :=
  ⟨by decide, by decide, rfl, rfl, by decide, by decide,
    built_matrix_column_sums 3 [[2, 3], [1], []] (List.replicate 9 (5 : ℚ))
      (by decide) (by decide) rfl rfl (by decide) (by decide)⟩

/-- C3: for every `N × N` link matrix `M`, score vector `s` of length `N` and
damping `d`, one execution of the loop body of `main` on the matrix weighted
once by `1 - d` and the mean column weighted once by `d` leaves in
`score_column` the vector `(1 - d) * (M * s) + d * (1 / N)`, computed from `s`
as it was when the iteration started, leaves in `score_diff` the new score
vector minus `s`, and `norm` of `score_diff` is the Euclidean norm of that
difference. -/
theorem loop_body_damped_update (N : Nat) (M s : List ℝ) (d : ℝ)
    (hM : M.length = N * N) (hs : s.length = N) :
    ∃ score_column score_diff : List ℝ,
      loop_body (weighted_matrix N d M) (weighted_mean N d) N s = (score_column, score_diff) ∧
      score_column.length = N ∧ score_diff.length = N ∧
      (∀ i, i < N → score_column.getD i 0 =
        (1 - d) * (∑ j in Finset.range N, M.getD (i * N + j) 0 * s.getD j 0)
          + d * (1 / (N : ℝ))) ∧
      (∀ i, i < N → score_diff.getD i 0 = score_column.getD i 0 - s.getD i 0) ∧
      norm score_diff N
        = Real.sqrt (∑ i in Finset.range N, (score_column.getD i 0 - s.getD i 0) ^ 2) := by
  have _ := hM
  refine ⟨(loop_body (weighted_matrix N d M) (weighted_mean N d) N s).1,
    (loop_body (weighted_matrix N d M) (weighted_mean N d) N s).2, rfl, ?_, ?_, ?_, ?_, ?_⟩
  · rw [loop_body_fst_length, hs]
  · exact loop_body_snd_length _ _ N s
  · exact fun i hi => weighted_step_getD N d M s hs i hi
  · intro i hi
    rw [loop_body_snd_getD, if_pos hi]
  · unfold norm
    rw [norm_sum_eq]
    congr 1
    apply Finset.sum_congr rfl
    intro i hi
    rw [loop_body_snd_getD, if_pos (Finset.mem_range.mp hi)]

/-- C3 at the two-page cycle with the uniform start vector and `d = 0.15`. -/
theorem loop_body_damped_update_witness :
    ([0, 1, 1, 0] : List ℝ).length = 2 * 2 ∧ ([1 / 2, 1 / 2] : List ℝ).length = 2 ∧
    ∃ score_column score_diff : List ℝ,
      loop_body (weighted_matrix 2 (15 / 100) [0, 1, 1, 0]) (weighted_mean 2 (15 / 100)) 2
        [1 / 2, 1 / 2] = (score_column, score_diff) ∧
      score_column.length = 2 ∧ score_diff.length = 2 ∧
      (∀ i, i < 2 → score_column.getD i 0 =
        (1 - 15 / 100) * (∑ j in Finset.range 2,
          ([0, 1, 1, 0] : List ℝ).getD (i * 2 + j) 0 * ([1 / 2, 1 / 2] : List ℝ).getD j 0)
          + 15 / 100 * (1 / ((2 : Nat) : ℝ))) ∧
      (∀ i, i < 2 → score_diff.getD i 0
        = score_column.getD i 0 - ([1 / 2, 1 / 2] : List ℝ).getD i 0) ∧
      norm score_diff 2 = Real.sqrt (∑ i in Finset.range 2,
        (score_column.getD i 0 - ([1 / 2, 1 / 2] : List ℝ).getD i 0) ^ 2) :=
  ⟨rfl, rfl, loop_body_damped_update 2 [0, 1, 1, 0] [1 / 2, 1 / 2] (15 / 100) rfl rfl⟩

/-- C4 fails on the code when the matrix has more rows than columns: for the
2 × 1 matrix `[1, 2]` and the vector `[3]` the product is `[3, 6]`, but
`column_multiplication` leaves the buffer `[3]`; with a buffer of two cells
`[3, 9]` the second cell keeps 9. Row 1 is never stored: `product` has
`num_cols` cells and the copy loop stops at `num_cols`. -/
theorem column_multiplication_more_rows :
    column_multiplication ([1, 2] : List ℚ) 2 1 [3] = [3] ∧
    column_multiplication ([1, 2] : List ℚ) 2 1 [3, 9] = [3, 9] ∧
    ∑ j in Finset.range 1, ([1, 2] : List ℚ).getD (1 * 1 + j) 0 * ([3] : List ℚ).getD j 0 = 6 := by
  refine ⟨?_, ?_, ?_⟩
  · norm_num [column_multiplication, for_loop, List.range_succ]
  · norm_num [column_multiplication, for_loop, List.range_succ]
  · norm_num [Finset.sum_range_succ]

/-- C5: the solver loop of `main` stops after `k` executions of its body, with
`result` handed to `print_standings`, exactly when `k ≥ 1` (at least one
update), `result` is the score vector `s_k`, the Euclidean norm of
`s_k - s_{k-1}` is at most `ε`, and that norm is greater than `ε` at every
earlier index `1 ≤ j < k`; `fuel` bounds the number of executions. -/
theorem solver_stops_at_first_small_step (N : Nat) (d ε : ℝ) (M : List ℝ) (fuel : Nat)
    (result : List ℝ) (k : Nat) :
    solver N d ε M fuel = some (result, k) ↔
      (1 ≤ k ∧ k ≤ fuel ∧ result = score_after N d M k ∧
        Real.sqrt (∑ i in Finset.range N,
          ((score_after N d M k).getD i 0 - (score_after N d M (k - 1)).getD i 0) ^ 2) ≤ ε ∧
        ∀ j, 1 ≤ j → j < k →
          ε < Real.sqrt (∑ i in Finset.range N,
            ((score_after N d M j).getD i 0 - (score_after N d M (j - 1)).getD i 0) ^ 2)) := by
  have hnorm : ∀ j, norm (diff_after N d M j) N = Real.sqrt (∑ i in Finset.range N,
      ((score_after N d M (j + 1)).getD i 0 - (score_after N d M j).getD i 0) ^ 2) := by
    intro j
    unfold norm
    rw [norm_sum_diff_after]
  rw [solver_eq_some_iff]
  constructor
  · rintro ⟨j, rfl, hj, hres, hfalse, hall⟩
    refine ⟨by omega, by omega, hres, ?_, ?_⟩
    · rw [Nat.add_sub_cancel, ← hnorm]
      exact (norm_exceeds_eq_false_iff _ _ _).mp hfalse
    · intro i hi1 hi2
      obtain ⟨i', rfl⟩ : ∃ i', i = i' + 1 := ⟨i - 1, by omega⟩
      rw [Nat.add_sub_cancel, ← hnorm]
      exact (norm_exceeds_iff _ _ _).mp (hall i' (by omega))
  · rintro ⟨hk1, hk2, hres, hle, hall⟩
    obtain ⟨j, rfl⟩ : ∃ j, k = j + 1 := ⟨k - 1, by omega⟩
    refine ⟨j, rfl, by omega, hres, ?_, ?_⟩
    · rw [Nat.add_sub_cancel, ← hnorm] at hle
      exact (norm_exceeds_eq_false_iff _ _ _).mpr hle
    · intro i hi
      have := hall (i + 1) (by omega) (by omega)
      rw [Nat.add_sub_cancel, ← hnorm] at this
      exact (norm_exceeds_iff _ _ _).mpr this

end Claims

/-! ## Total mass of the score vector -/

section Mass

variable {K : Type} [LinearOrderedField K]

theorem score_after_sum (n : Nat) (d : K) (M : List K) (k : Nat) :
    (score_after n d M k).sum = ∑ i in Finset.range n, (score_after n d M k).getD i 0 := by
  rw [sum_eq_sum_getD, score_after_length]

theorem mass_zero (n : Nat) (hn : 0 < n) (d : K) (M : List K) :
    ∑ i in Finset.range n, (score_after n d M 0).getD i 0 = 1 := by
  rw [Finset.sum_congr rfl (fun i hi => by
    rw [score_after_zero_getD, if_pos (Finset.mem_range.mp hi)]),
    Finset.sum_const, Finset.card_range, nsmul_eq_mul]
  have : (n : K) ≠ 0 := Nat.cast_ne_zero.mpr (by omega)
  field_simp

/-- The mass after an iteration: each old entry is weighted by the sum of its
column, and the teleport term adds `d`. -/
theorem mass_succ (n : Nat) (hn : 0 < n) (d : K) (M : List K) (k : Nat) :
    ∑ i in Finset.range n, (score_after n d M (k + 1)).getD i 0 =
      (1 - d) * (∑ j in Finset.range n,
        (∑ i in Finset.range n, M.getD (i * n + j) 0) * (score_after n d M k).getD j 0) + d := by
  rw [Finset.sum_congr rfl (fun i hi =>
    score_after_succ_getD n d M k i (Finset.mem_range.mp hi)),
    Finset.sum_add_distrib, ← Finset.mul_sum, Finset.sum_comm, Finset.sum_const,
    Finset.card_range, nsmul_eq_mul]
  have hn0 : (n : K) ≠ 0 := Nat.cast_ne_zero.mpr (by omega)
  have h1 : (n : K) * (d * (1 / (n : K))) = d := by field_simp
  rw [h1]
  congr 2
  apply Finset.sum_congr rfl
  intro j _
  rw [Finset.sum_mul]

/-- With a non-negative matrix every entry of every iterate is positive. -/
theorem score_after_pos (n : Nat) (d : K) (M : List K) (hd0 : 0 < d) (hd1 : d < 1)
    (hnonneg : ∀ i j, i < n → j < n → 0 ≤ M.getD (i * n + j) 0) (k i : Nat) (hi : i < n) :
    0 < (score_after n d M k).getD i 0 := by
  have hn : (0 : K) < (n : K) := Nat.cast_pos.mpr (by omega)
  induction k generalizing i with
  | zero =>
    rw [score_after_zero_getD, if_pos hi]
    positivity
  | succ k ih =>
    rw [score_after_succ_getD n d M k i hi]
    have h1 : 0 ≤ ∑ j in Finset.range n, M.getD (i * n + j) 0 * (score_after n d M k).getD j 0 :=
      Finset.sum_nonneg (fun j hj =>
        mul_nonneg (hnonneg i j hi (Finset.mem_range.mp hj))
          (le_of_lt (ih j (Finset.mem_range.mp hj))))
    have h2 : 0 ≤ (1 - d) * ∑ j in Finset.range n,
        M.getD (i * n + j) 0 * (score_after n d M k).getD j 0 :=
      mul_nonneg (by linarith) h1
    have h3 : 0 < d * (1 / (n : K)) := by positivity
    linarith

/-- With a non-negative matrix every entry after an iteration is at least `d / N`. -/
theorem score_after_succ_ge (n : Nat) (d : K) (M : List K) (hd0 : 0 < d) (hd1 : d < 1)
    (hnonneg : ∀ i j, i < n → j < n → 0 ≤ M.getD (i * n + j) 0) (k i : Nat) (hi : i < n) :
    d / (n : K) ≤ (score_after n d M (k + 1)).getD i 0 := by
  rw [score_after_succ_getD n d M k i hi]
  have h1 : 0 ≤ ∑ j in Finset.range n, M.getD (i * n + j) 0 * (score_after n d M k).getD j 0 :=
    Finset.sum_nonneg (fun j hj =>
      mul_nonneg (hnonneg i j hi (Finset.mem_range.mp hj))
        (le_of_lt (score_after_pos n d M hd0 hd1 hnonneg k j (Finset.mem_range.mp hj))))
  have h2 : 0 ≤ (1 - d) * ∑ j in Finset.range n,
      M.getD (i * n + j) 0 * (score_after n d M k).getD j 0 :=
    mul_nonneg (by linarith) h1
  have h3 : d * (1 / (n : K)) = d / (n : K) := by ring
  linarith

/-- Columns that each sum to 1 keep the mass at 1. -/
theorem mass_eq_one (n : Nat) (hn : 0 < n) (d : K) (M : List K)
    (hcol : ∀ j, j < n → ∑ i in Finset.range n, M.getD (i * n + j) 0 = 1) (k : Nat) :
    ∑ i in Finset.range n, (score_after n d M k).getD i 0 = 1 := by
  induction k with
  | zero => exact mass_zero n hn d M
  | succ k ih =>
    rw [mass_succ n hn d M k, Finset.sum_congr rfl (fun j hj => by
      rw [hcol j (Finset.mem_range.mp hj), one_mul]), ih]
    ring

/-- Non-negative columns that each sum to at most 1 keep the mass at most 1. -/
theorem mass_le_one (n : Nat) (hn : 0 < n) (d : K) (M : List K) (hd0 : 0 < d) (hd1 : d < 1)
    (hnonneg : ∀ i j, i < n → j < n → 0 ≤ M.getD (i * n + j) 0)
    (hcol : ∀ j, j < n → ∑ i in Finset.range n, M.getD (i * n + j) 0 ≤ 1) (k : Nat) :
    ∑ i in Finset.range n, (score_after n d M k).getD i 0 ≤ 1 := by
  induction k with
  | zero => exact le_of_eq (mass_zero n hn d M)
  | succ k ih =>
    rw [mass_succ n hn d M k]
    have h1 : ∑ j in Finset.range n,
        (∑ i in Finset.range n, M.getD (i * n + j) 0) * (score_after n d M k).getD j 0
        ≤ ∑ j in Finset.range n, (score_after n d M k).getD j 0 := by
      apply Finset.sum_le_sum
      intro j hj
      have hp := score_after_pos n d M hd0 hd1 hnonneg k j (Finset.mem_range.mp hj)
      calc (∑ i in Finset.range n, M.getD (i * n + j) 0) * (score_after n d M k).getD j 0
          ≤ 1 * (score_after n d M k).getD j 0 :=
            mul_le_mul_of_nonneg_right (hcol j (Finset.mem_range.mp hj)) (le_of_lt hp)
        _ = (score_after n d M k).getD j 0 := one_mul _
    have h2 : (1 - d) * (∑ j in Finset.range n,
        (∑ i in Finset.range n, M.getD (i * n + j) 0) * (score_after n d M k).getD j 0)
        ≤ (1 - d) * 1 :=
      mul_le_mul_of_nonneg_left (le_trans h1 ih) (by linarith)
    linarith

/-- A zero column among non-negative columns of sum at most 1 makes the mass
drop below 1 at every iteration. -/
theorem mass_lt_one (n : Nat) (hn : 0 < n) (d : K) (M : List K) (hd0 : 0 < d) (hd1 : d < 1)
    (hnonneg : ∀ i j, i < n → j < n → 0 ≤ M.getD (i * n + j) 0)
    (hcol : ∀ j, j < n → ∑ i in Finset.range n, M.getD (i * n + j) 0 ≤ 1)
    (j0 : Nat) (hj0 : j0 < n) (hzero : ∑ i in Finset.range n, M.getD (i * n + j0) 0 = 0)
    (k : Nat) :
    ∑ i in Finset.range n, (score_after n d M (k + 1)).getD i 0 < 1 := by
  rw [mass_succ n hn d M k]
  have h1 : ∑ j in Finset.range n,
      (∑ i in Finset.range n, M.getD (i * n + j) 0) * (score_after n d M k).getD j 0
      < ∑ j in Finset.range n, (score_after n d M k).getD j 0 := by
    apply Finset.sum_lt_sum
    · intro j hj
      have hp := score_after_pos n d M hd0 hd1 hnonneg k j (Finset.mem_range.mp hj)
      calc (∑ i in Finset.range n, M.getD (i * n + j) 0) * (score_after n d M k).getD j 0
          ≤ 1 * (score_after n d M k).getD j 0 :=
            mul_le_mul_of_nonneg_right (hcol j (Finset.mem_range.mp hj)) (le_of_lt hp)
        _ = (score_after n d M k).getD j 0 := one_mul _
    · refine ⟨j0, Finset.mem_range.mpr hj0, ?_⟩
      rw [hzero, zero_mul]
      exact score_after_pos n d M hd0 hd1 hnonneg k j0 hj0
  have h2 := mass_le_one n hn d M hd0 hd1 hnonneg hcol k
  have h3 : (1 - d) * (∑ j in Finset.range n,
      (∑ i in Finset.range n, M.getD (i * n + j) 0) * (score_after n d M k).getD j 0)
      < (1 - d) * 1 :=
    mul_lt_mul_of_pos_left (lt_of_lt_of_le h1 h2) (by linarith)
  linarith

/-- The entries of a built matrix are non-negative. -/
theorem built_entries_nonneg (N : Nat) (spec : List (List Int)) (M : List K)
    (hM : ∀ i j, i < N → j < N → M.getD (i * N + j) 0 =
      if ((i : Int) + 1) ∈ spec.getD j [] then 1 / ((spec.getD j []).length : K) else 0)
    (i j : Nat) (hi : i < N) (hj : j < N) : 0 ≤ M.getD (i * N + j) 0 := by
  rw [hM i j hi hj]
  split
  · positivity
  · exact le_refl 0

end Mass

/-! ## Contraction of the steps -/

section Contraction

variable {K : Type} [LinearOrderedField K]

/-- The step of an iteration is the weighted matrix applied to the previous step. -/
theorem step_succ_getD (n : Nat) (d : K) (M : List K) (k i : Nat) (hi : i < n) :
    (score_after n d M (k + 2)).getD i 0 - (score_after n d M (k + 1)).getD i 0 =
      (1 - d) * ∑ j in Finset.range n, M.getD (i * n + j) 0 *
        ((score_after n d M (k + 1)).getD j 0 - (score_after n d M k).getD j 0) := by
  rw [score_after_succ_getD n d M (k + 1) i hi, score_after_succ_getD n d M k i hi,
    Finset.sum_congr rfl (fun j _ => mul_sub (M.getD (i * n + j) 0)
      ((score_after n d M (k + 1)).getD j 0) ((score_after n d M k).getD j 0)),
    Finset.sum_sub_distrib]
  ring

/-- In the sum of absolute values, a step is at most `1 - d` times the previous one. -/
theorem l1_step_le (n : Nat) (d : K) (M : List K) (hd1 : d < 1)
    (hnonneg : ∀ i j, i < n → j < n → 0 ≤ M.getD (i * n + j) 0)
    (hcol : ∀ j, j < n → ∑ i in Finset.range n, M.getD (i * n + j) 0 ≤ 1) (k : Nat) :
    ∑ i in Finset.range n,
        |(score_after n d M (k + 2)).getD i 0 - (score_after n d M (k + 1)).getD i 0| ≤
      (1 - d) * ∑ i in Finset.range n,
        |(score_after n d M (k + 1)).getD i 0 - (score_after n d M k).getD i 0| := by
  have hd : 0 ≤ 1 - d := by linarith
  calc ∑ i in Finset.range n,
        |(score_after n d M (k + 2)).getD i 0 - (score_after n d M (k + 1)).getD i 0|
      ≤ ∑ i in Finset.range n, (1 - d) * ∑ j in Finset.range n, M.getD (i * n + j) 0 *
          |(score_after n d M (k + 1)).getD j 0 - (score_after n d M k).getD j 0| := by
        apply Finset.sum_le_sum
        intro i hi
        have hi' := Finset.mem_range.mp hi
        rw [step_succ_getD n d M k i hi', abs_mul, abs_of_nonneg hd]
        apply mul_le_mul_of_nonneg_left _ hd
        refine le_trans (Finset.abs_sum_le_sum_abs _ _) (le_of_eq ?_)
        apply Finset.sum_congr rfl
        intro j hj
        rw [abs_mul, abs_of_nonneg (hnonneg i j hi' (Finset.mem_range.mp hj))]
    _ = (1 - d) * ∑ j in Finset.range n, (∑ i in Finset.range n, M.getD (i * n + j) 0) *
          |(score_after n d M (k + 1)).getD j 0 - (score_after n d M k).getD j 0| := by
        rw [← Finset.mul_sum, Finset.sum_comm]
        congr 1
        apply Finset.sum_congr rfl
        intro j _
        rw [Finset.sum_mul]
    _ ≤ (1 - d) * ∑ j in Finset.range n,
          |(score_after n d M (k + 1)).getD j 0 - (score_after n d M k).getD j 0| := by
        apply mul_le_mul_of_nonneg_left _ hd
        apply Finset.sum_le_sum
        intro j hj
        calc (∑ i in Finset.range n, M.getD (i * n + j) 0) *
              |(score_after n d M (k + 1)).getD j 0 - (score_after n d M k).getD j 0|
            ≤ 1 * |(score_after n d M (k + 1)).getD j 0 - (score_after n d M k).getD j 0| :=
              mul_le_mul_of_nonneg_right (hcol j (Finset.mem_range.mp hj)) (abs_nonneg _)
          _ = _ := one_mul _

theorem l1_step_le_pow (n : Nat) (d : K) (M : List K) (hd1 : d < 1)
    (hnonneg : ∀ i j, i < n → j < n → 0 ≤ M.getD (i * n + j) 0)
    (hcol : ∀ j, j < n → ∑ i in Finset.range n, M.getD (i * n + j) 0 ≤ 1) (k : Nat) :
    ∑ i in Finset.range n,
        |(score_after n d M (k + 1)).getD i 0 - (score_after n d M k).getD i 0| ≤
      (1 - d) ^ k * ∑ i in Finset.range n,
        |(score_after n d M 1).getD i 0 - (score_after n d M 0).getD i 0| := by
  induction k with
  | zero => simp
  | succ k ih =>
    have hd : 0 ≤ 1 - d := by linarith
    calc _ ≤ (1 - d) * ∑ i in Finset.range n,
          |(score_after n d M (k + 1)).getD i 0 - (score_after n d M k).getD i 0| :=
          l1_step_le n d M hd1 hnonneg hcol k
      _ ≤ (1 - d) * ((1 - d) ^ k * ∑ i in Finset.range n,
          |(score_after n d M 1).getD i 0 - (score_after n d M 0).getD i 0|) :=
          mul_le_mul_of_nonneg_left ih hd
      _ = _ := by ring

/-- The sum of squares that `norm` accumulates is at most the square of the
sum of absolute values of the step. -/
theorem norm_sum_le_l1_sq (n : Nat) (d : K) (M : List K) (k : Nat) :
    norm_sum (diff_after n d M k) n ≤
      (∑ i in Finset.range n,
        |(score_after n d M (k + 1)).getD i 0 - (score_after n d M k).getD i 0|) ^ 2 := by
  rw [norm_sum_diff_after]
  refine le_trans (le_of_eq ?_) (Finset.sum_sq_le_sq_sum_of_nonneg (fun i _ => abs_nonneg _))
  apply Finset.sum_congr rfl
  intro i _
  rw [sq_abs]

/-- A step whose sum of absolute values is below `ε` fails the loop test. -/
theorem norm_exceeds_false_of_l1_lt (n : Nat) (d ε : K) (M : List K) (k : Nat)
    (hl1 : ∑ i in Finset.range n,
      |(score_after n d M (k + 1)).getD i 0 - (score_after n d M k).getD i 0| < ε) :
    norm_exceeds (diff_after n d M k) n ε = false := by
  have h0 : 0 ≤ ∑ i in Finset.range n,
      |(score_after n d M (k + 1)).getD i 0 - (score_after n d M k).getD i 0| :=
    Finset.sum_nonneg (fun i _ => abs_nonneg _)
  have hε : 0 < ε := lt_of_le_of_lt h0 hl1
  unfold norm_exceeds
  rw [decide_eq_false_iff_not]
  rintro (h | h)
  · exact absurd h (not_lt.mpr (le_of_lt hε))
  · have h1 := norm_sum_le_l1_sq n d M k
    have h2 : (∑ i in Finset.range n,
        |(score_after n d M (k + 1)).getD i 0 - (score_after n d M k).getD i 0|) ^ 2 < ε ^ 2 :=
      pow_lt_pow_left₀ hl1 h0 (by norm_num)
    linarith

/-- Some step fails the loop test. -/
theorem exists_small_step [Archimedean K] (n : Nat) (d ε : K) (M : List K)
    (hd0 : 0 < d) (hd1 : d < 1) (hε : 0 < ε)
    (hnonneg : ∀ i j, i < n → j < n → 0 ≤ M.getD (i * n + j) 0)
    (hcol : ∀ j, j < n → ∑ i in Finset.range n, M.getD (i * n + j) 0 ≤ 1) :
    ∃ k, norm_exceeds (diff_after n d M k) n ε = false := by
  have hL0 : 0 ≤ ∑ i in Finset.range n,
      |(score_after n d M 1).getD i 0 - (score_after n d M 0).getD i 0| :=
    Finset.sum_nonneg (fun i _ => abs_nonneg _)
  have hpos : 0 < ε / (∑ i in Finset.range n,
      |(score_after n d M 1).getD i 0 - (score_after n d M 0).getD i 0| + 1) := by positivity
  obtain ⟨k, hk⟩ := exists_pow_lt_of_lt_one hpos (show 1 - d < 1 by linarith)
  refine ⟨k, norm_exceeds_false_of_l1_lt n d ε M k ?_⟩
  refine lt_of_le_of_lt (l1_step_le_pow n d M hd1 hnonneg hcol k) ?_
  have hden : 0 < ∑ i in Finset.range n,
      |(score_after n d M 1).getD i 0 - (score_after n d M 0).getD i 0| + 1 := by linarith
  rw [lt_div_iff₀ hden] at hk
  have hpow : 0 ≤ (1 - d) ^ k := pow_nonneg (by linarith) k
  nlinarith

/-- When some step fails the loop test, the solver returns at the first one. -/
theorem solver_returns_of_small_step (n : Nat) (d ε : K) (M : List K)
    (h : ∃ k, norm_exceeds (diff_after n d M k) n ε = false) :
    ∃ fuel result k, solver n d ε M fuel = some (result, k) := by
  refine ⟨Nat.find h + 1, score_after n d M (Nat.find h + 1), Nat.find h + 1, ?_⟩
  rw [solver_eq_some_iff]
  refine ⟨Nat.find h, rfl, Nat.lt_succ_self _, rfl, Nat.find_spec h, ?_⟩
  intro i hi
  have := Nat.find_min h hi
  simpa using this

end Contraction

/-! ## The two-page cycle -/

section TwoCycle

variable {K : Type} [LinearOrderedField K]

/-- On a `2 × 2` matrix with entries `0, 1, 1, 0` the first iterate is `1 / 2` everywhere. -/
theorem two_cycle_first_iterate (d : K) (M : List K)
    (h00 : M.getD 0 0 = 0) (h01 : M.getD 1 0 = 1) (h10 : M.getD 2 0 = 1) (h11 : M.getD 3 0 = 0)
    (i : Nat) (hi : i < 2) : (score_after 2 d M 1).getD i 0 = 1 / 2 := by
  rw [score_after_succ_getD 2 d M 0 i hi]
  simp only [Finset.sum_range_succ, Finset.sum_range_zero, score_after_zero_getD]
  interval_cases i
  · simp only [zero_mul, zero_add, h00, h01]
    norm_num
    ring
  · simp only [one_mul, h10, h11]
    norm_num
    ring

end TwoCycle

/-! ## The five-page star -/

section Star

theorem star_matrix_built :
    init_link_matrix (some (link_file [[2], [1], [1], [1], [1]])) 5 (List.replicate 25 (0 : ℝ))
      = .ok (star_matrix ℝ) := by
  norm_num [init_link_matrix, for_loop, read_pages, read_links, link_file, List.range_succ,
    List.replicate_succ, star_matrix]

theorem star_matrix_nonneg (i j : Nat) (hi : i < 5) (hj : j < 5) :
    0 ≤ (star_matrix ℝ).getD (i * 5 + j) 0 := by
  unfold star_matrix
  interval_cases i <;> interval_cases j <;> norm_num

theorem star_matrix_column_sum (j : Nat) (hj : j < 5) :
    ∑ i in Finset.range 5, (star_matrix ℝ).getD (i * 5 + j) 0 = 1 := by
  unfold star_matrix
  interval_cases j <;> norm_num [Finset.sum_range_succ]

theorem star_first_iterate (i : Nat) (hi : i < 5) :
    (score_after 5 (15 / 100) (star_matrix ℝ) 1).getD i 0
      = ([71 / 100, 1 / 5, 3 / 100, 3 / 100, 3 / 100] : List ℝ).getD i 0 := by
  rw [score_after_succ_getD 5 _ _ 0 i hi]
  simp only [Finset.sum_range_succ, Finset.sum_range_zero, score_after_zero_getD, star_matrix]
  interval_cases i <;> norm_num

theorem star_second_iterate (i : Nat) (hi : i < 5) :
    (score_after 5 (15 / 100) (star_matrix ℝ) 2).getD i 0
      = ([553 / 2000, 1267 / 2000, 3 / 100, 3 / 100, 3 / 100] : List ℝ).getD i 0 := by
  rw [score_after_succ_getD 5 _ _ 1 i hi]
  simp only [Finset.sum_range_succ, Finset.sum_range_zero]
  rw [star_first_iterate 0 (by norm_num), star_first_iterate 1 (by norm_num),
    star_first_iterate 2 (by norm_num), star_first_iterate 3 (by norm_num),
    star_first_iterate 4 (by norm_num)]
  simp only [star_matrix]
  interval_cases i <;> norm_num

theorem star_first_step :
    norm_sum (diff_after 5 (15 / 100) (star_matrix ℝ) 0) 5 = 867 / 2500 := by
  rw [norm_sum_diff_after]
  simp only [Finset.sum_range_succ, Finset.sum_range_zero, score_after_zero_getD]
  rw [star_first_iterate 0 (by norm_num), star_first_iterate 1 (by norm_num),
    star_first_iterate 2 (by norm_num), star_first_iterate 3 (by norm_num),
    star_first_iterate 4 (by norm_num)]
  norm_num

theorem star_second_step :
    norm_sum (diff_after 5 (15 / 100) (star_matrix ℝ) 1) 5 = 751689 / 2000000 := by
  rw [norm_sum_diff_after]
  simp only [Finset.sum_range_succ, Finset.sum_range_zero]
  rw [star_first_iterate 0 (by norm_num), star_first_iterate 1 (by norm_num),
    star_first_iterate 2 (by norm_num), star_first_iterate 3 (by norm_num),
    star_first_iterate 4 (by norm_num), star_second_iterate 0 (by norm_num),
    star_second_iterate 1 (by norm_num), star_second_iterate 2 (by norm_num),
    star_second_iterate 3 (by norm_num), star_second_iterate 4 (by norm_num)]
  norm_num

/-- The first step on the star is not zero: its entries have absolute values
51/100, 0, 17/100, 17/100, 17/100. -/
theorem star_first_l1 :
    ∑ i in Finset.range 5, |(score_after 5 (15 / 100) (star_matrix ℝ) 1).getD i 0
      - (score_after 5 (15 / 100) (star_matrix ℝ) 0).getD i 0| = 51 / 50 := by
  simp only [Finset.sum_range_succ, Finset.sum_range_zero, score_after_zero_getD]
  rw [star_first_iterate 0 (by norm_num), star_first_iterate 1 (by norm_num),
    star_first_iterate 2 (by norm_num), star_first_iterate 3 (by norm_num),
    star_first_iterate 4 (by norm_num)]
  have e0 : |(51 / 100 : ℝ)| = 51 / 100 := abs_of_pos (by norm_num)
  have e1 : |(17 / 100 : ℝ)| = 17 / 100 := abs_of_pos (by norm_num)
  norm_num [e0, e1]

end Star

/-! ## The claims on the iterates -/

section IterateClaims

/-- C6, as stated, fails: for `N = 2` with page 1 listing destination 2 twice
and page 2 listing destination 1, every page has an outbound link, and with
`d = 0.15` the score vector after the first iteration sums to 63/80. -/
theorem mass_lost_with_repeated_destination :
    2 ≤ 2 ∧ (0 : ℚ) < 15 / 100 ∧ (15 / 100 : ℚ) < 1 ∧
    ([[2, 2], [1]] : List (List Int)).length = 2 ∧
    (∀ links ∈ ([[2, 2], [1]] : List (List Int)), ∀ p ∈ links, 1 ≤ p ∧ p ≤ ((2 : Nat) : Int)) ∧
    (∀ links ∈ ([[2, 2], [1]] : List (List Int)), links ≠ []) ∧
    init_link_matrix (some (link_file [[2, 2], [1]])) 2 ([0, 0, 0, 0] : List ℚ)
      = .ok [0, 1, 1 / 2, 0] ∧
    (score_after 2 (15 / 100) ([0, 1, 1 / 2, 0] : List ℚ) 1).sum = 63 / 80 ∧
    (score_after 2 (15 / 100) ([0, 1, 1 / 2, 0] : List ℚ) 1).sum ≠ 1 := by
  have hsum : (score_after 2 (15 / 100) ([0, 1, 1 / 2, 0] : List ℚ) 1).sum = 63 / 80 := by
    norm_num [score_after, loop_body, weighted_matrix, weighted_mean, init_columns,
      column_multiplication, addition, scalar_multiplication, for_loop, List.range_succ,
      List.replicate_succ]
  refine ⟨le_refl 2, by norm_num, by norm_num, rfl, by decide, by decide, ?_, hsum, ?_⟩
  · norm_num [init_link_matrix, for_loop, read_pages, read_links, link_file, List.range_succ]
  · rw [hsum]
    norm_num

/-- C6, amended: for every `N ≥ 2`, every `d` in `(0, 1)` and every link matrix
built by `init_link_matrix` from a link specification with destinations in
`[1, N]`, distinct within each page, in which every page has at least one
link, every iterate of the solver (the uniform start vector and the score
vector after each loop iteration) sums to exactly 1. -/
theorem score_mass_conserved {K : Type} [LinearOrderedField K] (N : Nat)
    (spec : List (List Int)) (buffer : List K) (d : K)
    (hN2 : 2 ≤ N) (hd0 : 0 < d) (hd1 : d < 1)
    (hN : spec.length = N) (hbuf : buffer.length = N * N)
    (hspec : ∀ links ∈ spec, ∀ p ∈ links, 1 ≤ p ∧ p ≤ (N : Int))
    (hnodup : ∀ links ∈ spec, links.Nodup)
    (hlinks : ∀ links ∈ spec, links ≠ []) :
    ∃ M : List K, init_link_matrix (some (link_file spec)) N buffer = .ok M ∧
      ∀ k, (score_after N d M k).sum = 1 := by
  have _ := hd0
  have _ := hd1
  obtain ⟨M, hM, _, hent⟩ := init_link_matrix_ok N spec buffer hN hbuf hspec
  refine ⟨M, hM, fun k => ?_⟩
  rw [score_after_sum]
  apply mass_eq_one N (by omega) d M
  intro j hj
  rw [built_column_sum_nodup N spec M hN hspec hnodup hent j hj,
    if_neg (hlinks _ (getD_mem_of_lt spec j (by omega)))]

/-- C6 amended, at the three-page graph 1 → {2, 3}, 2 → 1, 3 → 1 with `d = 0.15`. -/
theorem score_mass_conserved_witness :
    2 ≤ 3 ∧ (0 : ℚ) < 15 / 100 ∧ (15 / 100 : ℚ) < 1 ∧
    ([[2, 3], [1], [1]] : List (List Int)).length = 3 ∧
    (List.replicate 9 (0 : ℚ)).length = 3 * 3 ∧
    (∀ links ∈ ([[2, 3], [1], [1]] : List (List Int)), ∀ p ∈ links,
      1 ≤ p ∧ p ≤ ((3 : Nat) : Int)) ∧
    (∀ links ∈ ([[2, 3], [1], [1]] : List (List Int)), links.Nodup) ∧
    (∀ links ∈ ([[2, 3], [1], [1]] : List (List Int)), links ≠ []) ∧
    ∃ M : List ℚ, init_link_matrix (some (link_file [[2, 3], [1], [1]])) 3
        (List.replicate 9 (0 : ℚ)) = .ok M ∧
      ∀ k, (score_after 3 (15 / 100) M k).sum = 1 :=
  ⟨by decide, by norm_num, by norm_num, rfl, rfl, by decide, by decide, by decide,
    score_mass_conserved 3 [[2, 3], [1], [1]] (List.replicate 9 (0 : ℚ)) (15 / 100)
      (by decide) (by norm_num) (by norm_num) rfl rfl (by decide) (by decide) (by decide)⟩

/-- C7: in exact arithmetic, for every `N ≥ 2`, `d` in `(0, 1)`, `ε > 0` and
every `N × N` matrix with non-negative entries whose columns each sum to at
most 1, the solver loop of `main` terminates: with enough fuel the solver
returns a score vector after finitely many iterations. -/
theorem solver_terminates {K : Type} [LinearOrderedField K] [Archimedean K] (N : Nat)
    (d ε : K) (M : List K) (hN2 : 2 ≤ N) (hd0 : 0 < d) (hd1 : d < 1) (hε : 0 < ε)
    (hM : M.length = N * N)
    (hnonneg : ∀ i j, i < N → j < N → 0 ≤ M.getD (i * N + j) 0)
    (hcol : ∀ j, j < N → ∑ i in Finset.range N, M.getD (i * N + j) 0 ≤ 1) :
    ∃ fuel result k, solver N d ε M fuel = some (result, k) := by
  have _ := hN2
  have _ := hM
  exact solver_returns_of_small_step N d ε M
    (exists_small_step N d ε M hd0 hd1 hε hnonneg hcol)

/-- C7 on a `2 × 2` matrix with a dangling second page, with the constants of `main`. -/
theorem solver_terminates_witness :
    2 ≤ 2 ∧ (0 : ℚ) < WEIGHT ℚ ∧ WEIGHT ℚ < 1 ∧ (0 : ℚ) < ERROR ℚ ∧
    ([0, 0, 1, 0] : List ℚ).length = 2 * 2 ∧
    (∀ i j, i < 2 → j < 2 → 0 ≤ ([0, 0, 1, 0] : List ℚ).getD (i * 2 + j) 0) ∧
    (∀ j, j < 2 → ∑ i in Finset.range 2, ([0, 0, 1, 0] : List ℚ).getD (i * 2 + j) 0 ≤ 1) ∧
    ∃ fuel result k, solver 2 (WEIGHT ℚ) (ERROR ℚ) ([0, 0, 1, 0] : List ℚ) fuel
      = some (result, k) :=
  have hnonneg : ∀ i j, i < 2 → j < 2 → 0 ≤ ([0, 0, 1, 0] : List ℚ).getD (i * 2 + j) 0 := by
    intro i j hi hj
    interval_cases i <;> interval_cases j <;> norm_num
  have hcol : ∀ j, j < 2 →
      ∑ i in Finset.range 2, ([0, 0, 1, 0] : List ℚ).getD (i * 2 + j) 0 ≤ 1 := by
    intro j hj
    interval_cases j <;> norm_num [Finset.sum_range_succ]
  ⟨le_refl 2, by norm_num [WEIGHT], by norm_num [WEIGHT], by norm_num [ERROR], rfl, hnonneg, hcol,
    solver_terminates 2 (WEIGHT ℚ) (ERROR ℚ) [0, 0, 1, 0] (le_refl 2) (by norm_num [WEIGHT])
      (by norm_num [WEIGHT]) (by norm_num [ERROR]) rfl hnonneg hcol⟩

/-- C8: in exact arithmetic, for every `N ≥ 2`, `d` in `(0, 1)` and link matrix
built from a link specification of distinct destinations in `[1, N]` in which
some page has no outbound link, the score vector after every loop iteration
`k ≥ 1` sums to strictly less than 1, and so does the vector the solver
returns at convergence. -/
theorem dangling_mass_below_one {K : Type} [LinearOrderedField K] (N : Nat)
    (spec : List (List Int)) (buffer : List K) (d : K)
    (hN2 : 2 ≤ N) (hd0 : 0 < d) (hd1 : d < 1)
    (hN : spec.length = N) (hbuf : buffer.length = N * N)
    (hspec : ∀ links ∈ spec, ∀ p ∈ links, 1 ≤ p ∧ p ≤ (N : Int))
    (hnodup : ∀ links ∈ spec, links.Nodup)
    (hdangling : ∃ j, j < N ∧ spec.getD j [] = []) :
    ∃ M : List K, init_link_matrix (some (link_file spec)) N buffer = .ok M ∧
      (∀ k, 1 ≤ k → (score_after N d M k).sum < 1) ∧
      (∀ (ε : K) (fuel : Nat) (result : List K) (k : Nat),
        solver N d ε M fuel = some (result, k) → result.sum < 1) := by
  obtain ⟨M, hM, _, hent⟩ := init_link_matrix_ok N spec buffer hN hbuf hspec
  obtain ⟨j0, hj0, hempty⟩ := hdangling
  have hsums := built_column_sum_nodup N spec M hN hspec hnodup hent
  have hcol : ∀ j, j < N → ∑ i in Finset.range N, M.getD (i * N + j) 0 ≤ 1 := by
    intro j hj
    rw [hsums j hj]
    split <;> norm_num
  have hzero : ∑ i in Finset.range N, M.getD (i * N + j0) 0 = 0 := by
    rw [hsums j0 hj0, if_pos hempty]
  have hlt : ∀ k, (score_after N d M (k + 1)).sum < 1 := by
    intro k
    rw [score_after_sum]
    exact mass_lt_one N (by omega) d M hd0 hd1 (built_entries_nonneg N spec M hent) hcol
      j0 hj0 hzero k
  refine ⟨M, hM, ?_, ?_⟩
  · intro k hk
    obtain ⟨k', rfl⟩ : ∃ k', k = k' + 1 := ⟨k - 1, by omega⟩
    exact hlt k'
  · intro ε fuel result k hsolve
    obtain ⟨j, _, _, hres, _, _⟩ := (solver_eq_some_iff N d ε M fuel result k).mp hsolve
    rw [hres]
    exact hlt j

/-- C8 at two pages, the first linking to the second, the second dangling. -/
theorem dangling_mass_below_one_witness :
    2 ≤ 2 ∧ (0 : ℚ) < 15 / 100 ∧ (15 / 100 : ℚ) < 1 ∧
    ([[2], []] : List (List Int)).length = 2 ∧ ([0, 0, 0, 0] : List ℚ).length = 2 * 2 ∧
    (∀ links ∈ ([[2], []] : List (List Int)), ∀ p ∈ links, 1 ≤ p ∧ p ≤ ((2 : Nat) : Int)) ∧
    (∀ links ∈ ([[2], []] : List (List Int)), links.Nodup) ∧
    (∃ j, j < 2 ∧ ([[2], []] : List (List Int)).getD j [] = []) ∧
    ∃ M : List ℚ, init_link_matrix (some (link_file [[2], []])) 2 [0, 0, 0, 0] = .ok M ∧
      (∀ k, 1 ≤ k → (score_after 2 (15 / 100) M k).sum < 1) ∧
      (∀ (ε : ℚ) (fuel : Nat) (result : List ℚ) (k : Nat),
        solver 2 (15 / 100) ε M fuel = some (result, k) → result.sum < 1) :=
  ⟨le_refl 2, by norm_num, by norm_num, rfl, rfl, by decide, by decide, ⟨1, by decide, rfl⟩,
    dangling_mass_below_one 2 [[2], []] [0, 0, 0, 0] (15 / 100) (le_refl 2) (by norm_num)
      (by norm_num) rfl rfl (by decide) (by decide) ⟨1, by decide, rfl⟩⟩

/-- C9, as stated, fails: on the column-stochastic matrix of the five-page
star (page 1 links to page 2, pages 2 to 5 link to page 1), with `d = 0.15` and
`ε = 0.6`, the norm of `s_1 - s_0` is below `ε` (its square is 867/2500) and
the norm of `s_2 - s_1` is not (its square is 751689/2000000). -/
theorem small_step_then_larger_step :
    ∃ M : List ℝ,
      init_link_matrix (some (link_file [[2], [1], [1], [1], [1]])) 5 (List.replicate 25 0)
        = .ok M ∧
      (∀ i j, i < 5 → j < 5 → 0 ≤ M.getD (i * 5 + j) 0) ∧
      (∀ j, j < 5 → ∑ i in Finset.range 5, M.getD (i * 5 + j) 0 = 1) ∧
      (0 : ℝ) < 15 / 100 ∧ (15 / 100 : ℝ) < 1 ∧ (0 : ℝ) < 6 / 10 ∧
      norm (diff_after 5 (15 / 100) M 0) 5 < 6 / 10 ∧
      ¬ norm (diff_after 5 (15 / 100) M 1) 5 < 6 / 10 := by
  refine ⟨star_matrix ℝ, star_matrix_built, star_matrix_nonneg, star_matrix_column_sum,
    by norm_num, by norm_num, by norm_num, ?_, ?_⟩
  · unfold norm
    rw [star_first_step, Real.sqrt_lt' (by norm_num)]
    norm_num
  · unfold norm
    rw [star_second_step, not_lt, Real.le_sqrt' (by norm_num)]
    norm_num

/-- C9, amended: for every column-stochastic link matrix, `d` in `(0, 1)` and
`ε > 0`, if at some solver iteration the sum of the absolute values of the
entries of `s_k - s_{k-1}` is below `ε`, then after one more update the sum of
the absolute values of `s_{k+1} - s_k` is below `ε`, and so is the Euclidean
norm of `s_{k+1} - s_k` that the loop tests. -/
theorem small_l1_step_stays_small (N : Nat) (d ε : ℝ) (M : List ℝ)
    (hd0 : 0 < d) (hd1 : d < 1) (hε : 0 < ε)
    (hnonneg : ∀ i j, i < N → j < N → 0 ≤ M.getD (i * N + j) 0)
    (hcol : ∀ j, j < N → ∑ i in Finset.range N, M.getD (i * N + j) 0 = 1) (k : Nat)
    (hstep : ∑ i in Finset.range N,
      |(score_after N d M (k + 1)).getD i 0 - (score_after N d M k).getD i 0| < ε) :
    ∑ i in Finset.range N,
      |(score_after N d M (k + 2)).getD i 0 - (score_after N d M (k + 1)).getD i 0| < ε ∧
    norm (diff_after N d M (k + 1)) N < ε := by
  have h0 : 0 ≤ ∑ i in Finset.range N,
      |(score_after N d M (k + 1)).getD i 0 - (score_after N d M k).getD i 0| :=
    Finset.sum_nonneg (fun i _ => abs_nonneg _)
  have h1 := l1_step_le N d M hd1 hnonneg (fun j hj => le_of_eq (hcol j hj)) k
  have h2 : ∑ i in Finset.range N,
      |(score_after N d M (k + 2)).getD i 0 - (score_after N d M (k + 1)).getD i 0| < ε := by
    nlinarith
  refine ⟨h2, ?_⟩
  have h3 := norm_sum_le_l1_sq N d M (k + 1)
  have h4 : 0 ≤ ∑ i in Finset.range N,
      |(score_after N d M (k + 2)).getD i 0 - (score_after N d M (k + 1)).getD i 0| :=
    Finset.sum_nonneg (fun i _ => abs_nonneg _)
  unfold norm
  rw [Real.sqrt_lt' hε]
  have h5 : (∑ i in Finset.range N,
      |(score_after N d M (k + 2)).getD i 0 - (score_after N d M (k + 1)).getD i 0|) ^ 2
      < ε ^ 2 := pow_lt_pow_left₀ h2 h4 (by norm_num)
  exact lt_of_le_of_lt h3 h5

/-- C9 amended, at a nonzero step: on the five-page star with `d = 0.15` the
sum of the absolute values of `s_1 - s_0` is 51/50, below `ε = 2`, and the
next step stays below 2 in both norms. -/
theorem small_l1_step_stays_small_witness :
    (0 : ℝ) < 15 / 100 ∧ (15 / 100 : ℝ) < 1 ∧ (0 : ℝ) < 2 ∧
    (∀ i j, i < 5 → j < 5 → 0 ≤ (star_matrix ℝ).getD (i * 5 + j) 0) ∧
    (∀ j, j < 5 → ∑ i in Finset.range 5, (star_matrix ℝ).getD (i * 5 + j) 0 = 1) ∧
    (∑ i in Finset.range 5, |(score_after 5 (15 / 100) (star_matrix ℝ) (0 + 1)).getD i 0
      - (score_after 5 (15 / 100) (star_matrix ℝ) 0).getD i 0| = 51 / 50) ∧
    (∑ i in Finset.range 5, |(score_after 5 (15 / 100) (star_matrix ℝ) (0 + 1)).getD i 0
      - (score_after 5 (15 / 100) (star_matrix ℝ) 0).getD i 0| < 2) ∧
    (∑ i in Finset.range 5, |(score_after 5 (15 / 100) (star_matrix ℝ) (0 + 2)).getD i 0
      - (score_after 5 (15 / 100) (star_matrix ℝ) (0 + 1)).getD i 0| < 2 ∧
      norm (diff_after 5 (15 / 100) (star_matrix ℝ) (0 + 1)) 5 < 2) :=
  have hstep : ∑ i in Finset.range 5,
      |(score_after 5 (15 / 100) (star_matrix ℝ) (0 + 1)).getD i 0
        - (score_after 5 (15 / 100) (star_matrix ℝ) 0).getD i 0| < 2 :=
    lt_of_eq_of_lt star_first_l1 (by norm_num)
  ⟨by norm_num, by norm_num, by norm_num, star_matrix_nonneg, star_matrix_column_sum,
    star_first_l1, hstep,
    small_l1_step_stays_small 5 (15 / 100) 2 (star_matrix ℝ) (by norm_num) (by norm_num)
      (by norm_num) star_matrix_nonneg star_matrix_column_sum 0 hstep⟩

/-- C10: for `N = 2` with page 1 linking to page 2 only and page 2 linking to
page 1 only, for every damping `d` in `(0, 1)` and `ε = 0.0001`, the solver
terminates, after one execution of the loop body, and its final score vector
is exactly `[1/2, 1/2]`. -/
theorem two_cycle_scores {K : Type} [LinearOrderedField K] (d : K) (hd0 : 0 < d) (hd1 : d < 1)
    (buffer : List K) (hbuf : buffer.length = 2 * 2) (fuel : Nat) (hfuel : 1 ≤ fuel) :
    ∃ M : List K, init_link_matrix (some (link_file [[2], [1]])) 2 buffer = .ok M ∧
      solver 2 d (ERROR K) M fuel = some ([1 / 2, 1 / 2], 1) := by
  have _ := hd0
  have _ := hd1
  obtain ⟨M, hM, _, hent⟩ := init_link_matrix_ok 2 [[2], [1]] buffer rfl hbuf (by decide)
  have h00 : M.getD 0 0 = 0 := by simpa using hent 0 0 (by decide) (by decide)
  have h01 : M.getD 1 0 = 1 := by simpa using hent 0 1 (by decide) (by decide)
  have h10 : M.getD 2 0 = 1 := by simpa using hent 1 0 (by decide) (by decide)
  have h11 : M.getD 3 0 = 0 := by simpa using hent 1 1 (by decide) (by decide)
  have hfirst := two_cycle_first_iterate d M h00 h01 h10 h11
  refine ⟨M, hM, (solver_eq_some_iff 2 d (ERROR K) M fuel _ 1).mpr
    ⟨0, rfl, by omega, ?_, ?_, fun i hi => absurd hi (Nat.not_lt_zero i)⟩⟩
  · apply ext_getD
    · rw [score_after_length]
      rfl
    · intro x hx
      have hx2 : x < 2 := hx
      rw [hfirst x hx2]
      interval_cases x <;> rfl
  · apply norm_exceeds_false_of_l1_lt
    rw [Finset.sum_congr rfl (fun i hi => by
      rw [hfirst i (Finset.mem_range.mp hi), score_after_zero_getD,
        if_pos (Finset.mem_range.mp hi)])]
    norm_num [ERROR]

/-- C10 at `d = 0.15`, the `WEIGHT` of `main`, with one unit of fuel. -/
theorem two_cycle_scores_witness :
    (0 : ℚ) < WEIGHT ℚ ∧ WEIGHT ℚ < 1 ∧ ([3, 3, 3, 3] : List ℚ).length = 2 * 2 ∧ 1 ≤ 1 ∧
    ∃ M : List ℚ, init_link_matrix (some (link_file [[2], [1]])) 2 [3, 3, 3, 3] = .ok M ∧
      solver 2 (WEIGHT ℚ) (ERROR ℚ) M 1 = some ([1 / 2, 1 / 2], 1) :=
  ⟨by norm_num [WEIGHT], by norm_num [WEIGHT], rfl, le_refl 1,
    two_cycle_scores (WEIGHT ℚ) (by norm_num [WEIGHT]) (by norm_num [WEIGHT]) [3, 3, 3, 3] rfl
      1 (le_refl 1)⟩

end IterateClaims

/-! ## The ranking formatter -/

section Standings

variable {K : Type} [LinearOrderedField K]

/-- The inner loop of `print_standings` over the first `m` entries: either no
entry is above `-1` and the initial pair is kept, or the pair is the first
largest entry and its index. -/
theorem select_max_prefix (s : List K) (m : Nat) :
    (select_max s m = (-1, -1) ∧ ∀ j, j < m → s.getD j 0 ≤ -1) ∨
    (∃ p : Nat, p < m ∧ select_max s m = (s.getD p 0, (p : Int)) ∧ -1 < s.getD p 0 ∧
      (∀ j, j < m → s.getD j 0 ≤ s.getD p 0) ∧ (∀ j, j < p → s.getD j 0 < s.getD p 0)) := by
  induction m with
  | zero => exact Or.inl ⟨rfl, fun j hj => absurd hj (Nat.not_lt_zero j)⟩
  | succ m ih =>
    unfold select_max at ih ⊢
    rw [for_loop_succ]
    rcases ih with ⟨heq, hall⟩ | ⟨p, hp, heq, hgt, hmax, hfirst⟩
    · rw [heq]
      by_cases h : s.getD m 0 > -1
      · refine Or.inr ⟨m, Nat.lt_succ_self m, by dsimp only; rw [if_pos h], h, ?_, ?_⟩
        · intro j hj
          rcases Nat.lt_succ_iff_lt_or_eq.mp hj with hlt | heq'
          · exact le_of_lt (lt_of_le_of_lt (hall j hlt) h)
          · rw [heq']
        · intro j hj
          exact lt_of_le_of_lt (hall j hj) h
      · refine Or.inl ⟨by dsimp only; rw [if_neg h], ?_⟩
        intro j hj
        rcases Nat.lt_succ_iff_lt_or_eq.mp hj with hlt | heq'
        · exact hall j hlt
        · rw [heq']
          exact not_lt.mp h
    · rw [heq]
      by_cases h : s.getD m 0 > s.getD p 0
      · refine Or.inr ⟨m, Nat.lt_succ_self m, by dsimp only; rw [if_pos h], lt_trans hgt h, ?_, ?_⟩
        · intro j hj
          rcases Nat.lt_succ_iff_lt_or_eq.mp hj with hlt | heq'
          · exact le_of_lt (lt_of_le_of_lt (hmax j hlt) h)
          · rw [heq']
        · intro j hj
          exact lt_of_le_of_lt (hmax j hj) h
      · refine Or.inr ⟨p, Nat.lt_succ_of_lt hp, by dsimp only; rw [if_neg h], hgt, ?_, hfirst⟩
        intro j hj
        rcases Nat.lt_succ_iff_lt_or_eq.mp hj with hlt | heq'
        · exact hmax j hlt
        · rw [heq']
          exact not_lt.mp h

/-- Fewer than `n` distinct pages leave a page below `n` unpicked. -/
theorem exists_unpicked (ps : List Nat) (n : Nat) (hlen : ps.length < n) :
    ∃ j, j < n ∧ j ∉ ps := by
  by_contra hcon
  push_neg at hcon
  have hsub : Finset.range n ⊆ ps.toFinset := by
    intro j hj
    exact List.mem_toFinset.mpr (hcon j (Finset.mem_range.mp hj))
  have h1 := Finset.card_le_card hsub
  rw [Finset.card_range] at h1
  have h2 := List.toFinset_card_le ps
  omega

/-- The state of `print_standings` after `t` executions of its outer loop on
positive scores: `t` distinct pages are picked, in non-increasing order of
score and increasing page order among equal scores, each picked cell is
cleared and every other cell is kept. -/
theorem standings_invariant (s : List K) (n : Nat) (hlen : s.length = n)
    (hpos : ∀ j, j < n → 0 < s.getD j 0) (t : Nat) (ht : t ≤ n) :
    ∃ ps : List Nat, ps.length = t ∧ ps.Nodup ∧ (∀ p ∈ ps, p < n) ∧
      (for_loop t (standings_step n) (s, [])).1.length = n ∧
      (∀ j, j < n → (for_loop t (standings_step n) (s, [])).1.getD j 0 =
        if j ∈ ps then 0 else s.getD j 0) ∧
      (for_loop t (standings_step n) (s, [])).2.map (fun l => l.rank)
        = (List.range t).map (fun i : Nat => (i : Int) + 1) ∧
      (for_loop t (standings_step n) (s, [])).2.map (fun l => (l.page, l.score))
        = ps.map (fun p : Nat => ((p : Int) + 1, s.getD p 0)) ∧
      ps.Pairwise (fun a b => s.getD b 0 < s.getD a 0 ∨ (s.getD b 0 = s.getD a 0 ∧ a < b)) ∧
      (∀ p ∈ ps, ∀ j, j < n → j ∉ ps →
        (s.getD j 0 < s.getD p 0 ∨ (s.getD j 0 = s.getD p 0 ∧ p < j))) := by
  induction t with
  | zero =>
    refine ⟨[], rfl, List.nodup_nil, ?_, hlen, ?_, rfl, rfl, List.Pairwise.nil, ?_⟩
    · intro p hp
      cases hp
    · intro j _
      simp [for_loop_zero]
    · intro p hp
      cases hp
  | succ t ih =>
    obtain ⟨ps, hps, hnodup, hlt, hcurlen, hcur, hranks, hpairs, hsorted, hrest⟩ :=
      ih (by omega)
    obtain ⟨j0, hj0, hj0ps⟩ := exists_unpicked ps n (by omega)
    rw [for_loop_succ]
    generalize for_loop t (standings_step n) (s, []) = state at hcurlen hcur hranks hpairs
    rcases select_max_prefix state.1 n with ⟨_, hall⟩ | ⟨p, hp, hsel, _, hmax, hfirst⟩
    · exfalso
      have h1 := hall j0 hj0
      rw [hcur j0 hj0, if_neg hj0ps] at h1
      have h2 := hpos j0 hj0
      linarith
    · have hpps : p ∉ ps := by
        intro hmem
        have h1 := hmax j0 hj0
        rw [hcur j0 hj0, if_neg hj0ps, hcur p hp, if_pos hmem] at h1
        have h2 := hpos j0 hj0
        linarith
      have hcurp : state.1.getD p 0 = s.getD p 0 := by rw [hcur p hp, if_neg hpps]
      have hstep : standings_step n t state =
          (state.1.set p 0, state.2 ++ [⟨(t : Int) + 1, (p : Int) + 1, s.getD p 0⟩]) := by
        unfold standings_step
        simp only [hsel, hcurp, Int.toNat_ofNat]
        rw [if_pos (Int.natCast_nonneg p)]
      rw [hstep]
      refine ⟨ps ++ [p], by simp [hps], ?_, ?_, ?_, ?_, ?_, ?_, ?_, ?_⟩
      · rw [List.nodup_append]
        refine ⟨hnodup, List.nodup_singleton p, ?_⟩
        intro a ha hap
        rw [List.mem_singleton] at hap
        exact hpps (hap ▸ ha)
      · intro q hq
        rcases List.mem_append.mp hq with h | h
        · exact hlt q h
        · rw [List.mem_singleton] at h
          rw [h]
          exact hp
      · show (state.1.set p 0).length = n
        rw [List.length_set, hcurlen]
      · intro j hj
        show (state.1.set p 0).getD j 0 = _
        rw [getD_set, hcur j hj, hcurlen]
        by_cases hjp : p = j
        · subst hjp
          rw [if_pos ⟨rfl, hp⟩, if_pos (List.mem_append_right ps (List.mem_singleton_self p))]
        · rw [if_neg (fun h => hjp h.1)]
          by_cases hjps : j ∈ ps
          · rw [if_pos hjps, if_pos (List.mem_append_left [p] hjps)]
          · rw [if_neg hjps, if_neg]
            intro h
            rcases List.mem_append.mp h with h | h
            · exact hjps h
            · rw [List.mem_singleton] at h
              exact hjp h.symm
      · show (state.2 ++ _).map _ = _
        rw [List.map_append, hranks, List.range_succ, List.map_append]
        rfl
      · show (state.2 ++ _).map _ = _
        rw [List.map_append, hpairs, List.map_append]
        rfl
      · rw [List.pairwise_append]
        refine ⟨hsorted, List.pairwise_singleton _ p, ?_⟩
        intro a ha b hb
        rw [List.mem_singleton] at hb
        rw [hb]
        exact hrest a ha p hp hpps
      · intro a ha j hj hjps
        have hjps' : j ∉ ps := fun h => hjps (List.mem_append_left [p] h)
        have hjp : j ≠ p := fun h =>
          hjps (List.mem_append_right ps (List.mem_singleton.mpr h))
        rcases List.mem_append.mp ha with h | h
        · exact hrest a h j hj hjps'
        · rw [List.mem_singleton] at h
          rw [h]
          have h1 := hmax j hj
          rw [hcur j hj, if_neg hjps', hcurp] at h1
          rcases lt_or_eq_of_le h1 with h2 | h2
          · exact Or.inl h2
          · refine Or.inr ⟨h2, ?_⟩
            rcases Nat.lt_trichotomy j p with h3 | h3 | h3
            · have h4 := hfirst j h3
              rw [hcur j hj, if_neg hjps', hcurp] at h4
              exact absurd h2 (ne_of_lt h4)
            · exact absurd h3 hjp
            · exact h3

/-- On positive scores `print_standings` clears the buffer and prints the
ranks `1..n`, a permutation of the pages `1..n`, each with its score, in
non-increasing order of score and increasing page order among equal scores. -/
theorem print_standings_positive (s : List K) (n : Nat) (hlen : s.length = n)
    (hpos : ∀ x ∈ s, 0 < x) :
    (print_standings s n).1 = List.replicate n 0 ∧
    (print_standings s n).2.map (fun l => l.rank)
      = (List.range n).map (fun i : Nat => (i : Int) + 1) ∧
    List.Perm ((print_standings s n).2.map (fun l => l.page))
      ((List.range n).map (fun j : Nat => (j : Int) + 1)) ∧
    (∀ l ∈ (print_standings s n).2, l.score = s.getD (l.page - 1).toNat 0) ∧
    (print_standings s n).2.Pairwise
      (fun a b => b.score < a.score ∨ (b.score = a.score ∧ a.page < b.page)) := by
  have hpos' : ∀ j, j < n → 0 < s.getD j 0 := by
    intro j hj
    rw [List.getD_eq_getElem _ _ (by omega)]
    exact hpos _ (List.getElem_mem _)
  obtain ⟨ps, hps, hnodup, hlt, hcurlen, hcur, hranks, hpairs, hsorted, _⟩ :=
    standings_invariant s n hlen hpos' n (le_refl n)
  have hperm : List.Perm ps (List.range n) := by
    apply List.perm_of_nodup_nodup_toFinset_eq hnodup (List.nodup_range n)
    apply Finset.eq_of_subset_of_card_le
    · intro p hp
      rw [List.mem_toFinset] at hp
      rw [List.mem_toFinset, List.mem_range]
      exact hlt p hp
    · rw [List.toFinset_card_of_nodup hnodup, List.toFinset_card_of_nodup (List.nodup_range n),
        hps, List.length_range]
  have hpages : (for_loop n (standings_step n) (s, [])).2.map (fun l => l.page)
      = ps.map (fun p : Nat => (p : Int) + 1) := by
    have := congrArg (List.map Prod.fst) hpairs
    simpa [List.map_map, Function.comp_def] using this
  unfold print_standings
  refine ⟨?_, hranks, ?_, ?_, ?_⟩
  · apply ext_getD
    · rw [hcurlen, List.length_replicate]
    · intro x hx
      rw [hcurlen] at hx
      rw [hcur x hx, if_pos (hperm.mem_iff.mpr (List.mem_range.mpr hx)), getD_replicate_zero]
  · rw [hpages]
    exact hperm.map _
  · intro l hl
    have hmem : (l.page, l.score) ∈
        (for_loop n (standings_step n) (s, [])).2.map (fun l => (l.page, l.score)) :=
      List.mem_map_of_mem _ hl
    rw [hpairs, List.mem_map] at hmem
    obtain ⟨p, _, hp⟩ := hmem
    simp only [Prod.mk.injEq] at hp
    rw [← hp.1, ← hp.2]
    simp
  · have h1 : ((for_loop n (standings_step n) (s, [])).2.map
        (fun l => (l.page, l.score))).Pairwise
        (fun a b => b.2 < a.2 ∨ (b.2 = a.2 ∧ a.1 < b.1)) := by
      rw [hpairs, List.pairwise_map]
      refine hsorted.imp ?_
      intro a b hab
      rcases hab with h | ⟨h, h'⟩
      · exact Or.inl h
      · exact Or.inr ⟨h, by simp only; omega⟩
    rw [List.pairwise_map] at h1
    exact h1

end Standings

/-! ## The primitives on the memory -/

section Memory

variable {K : Type} [LinearOrderedField K] {P : Type} [DecidableEq P]

omit [LinearOrderedField K] in
/-- A loop that rewrites the array `p` from its own content and from the
content of another array `q` is a loop on the content of `p`; the rest of the
memory is kept. -/
theorem for_loop_update_read (n : Nat) (p q : P) (hqp : q ≠ p)
    (g : Nat → List K → List K → List K) (mem : P → List K) :
    for_loop n (fun i mem => Function.update mem p (g i (mem p) (mem q))) mem =
      Function.update mem p (for_loop n (fun i l => g i l (mem q)) (mem p)) := by
  induction n with
  | zero => simp [for_loop_zero]
  | succ n ih =>
    rw [for_loop_succ, ih, for_loop_succ]
    simp only [Function.update_same, Function.update_noteq hqp, Function.update_idem]

omit [LinearOrderedField K] in
/-- A loop that rewrites the array `p` from its own content only. -/
theorem for_loop_update (n : Nat) (p : P) (f : Nat → List K → List K) (mem : P → List K) :
    for_loop n (fun i mem => Function.update mem p (f i (mem p))) mem =
      Function.update mem p (for_loop n f (mem p)) := by
  induction n with
  | zero => simp [for_loop_zero]
  | succ n ih =>
    rw [for_loop_succ, ih, for_loop_succ]
    simp only [Function.update_same, Function.update_idem]

theorem scalar_multiplication_mem_eq (mem : P → List K) (matrix : P) (r c : Nat) (scalar : K) :
    scalar_multiplication_mem mem matrix r c scalar =
      Function.update mem matrix (scalar_multiplication (mem matrix) r c scalar) := by
  unfold scalar_multiplication_mem scalar_multiplication mem_write
  exact for_loop_update (r * c) matrix (fun i l => l.set i (l.getD i 0 * scalar)) mem

theorem column_multiplication_mem_eq (mem : P → List K) (matrix column : P) (r c : Nat) :
    column_multiplication_mem mem matrix r c column =
      Function.update mem column (column_multiplication (mem matrix) r c (mem column)) := by
  unfold column_multiplication_mem column_multiplication mem_write
  exact for_loop_update c column (fun i l => l.set i ((for_loop r (fun i product =>
    product.set i (for_loop c (fun j sum =>
      sum + (mem matrix).getD (i * c + j) 0 * (mem column).getD j 0) 0))
    (List.replicate c 0)).getD i 0)) mem

theorem addition_mem_eq (mem : P → List K) (matrix1 matrix2 : P) (h : matrix2 ≠ matrix1)
    (r c : Nat) :
    addition_mem mem matrix1 matrix2 r c =
      Function.update mem matrix1 (addition (mem matrix1) (mem matrix2) r c) := by
  unfold addition_mem addition mem_write
  exact for_loop_update_read (r * c) matrix1 matrix2 h
    (fun i l l2 => l.set i (l.getD i 0 + l2.getD i 0)) mem

/-- The loop body on the memory of `main`: the link matrix and the mean
column are kept, the score column and the score difference are those of
`loop_body`. -/
theorem loop_body_mem_eq (mem : Buffer → List K) (n : Nat) :
    loop_body_mem mem n Buffer.link_matrix = mem Buffer.link_matrix ∧
    loop_body_mem mem n Buffer.mean_column = mem Buffer.mean_column ∧
    loop_body_mem mem n Buffer.score_column =
      (loop_body (mem Buffer.link_matrix) (mem Buffer.mean_column) n
        (mem Buffer.score_column)).1 ∧
    loop_body_mem mem n Buffer.score_diff =
      (loop_body (mem Buffer.link_matrix) (mem Buffer.mean_column) n
        (mem Buffer.score_column)).2 := by
  have hcopy : ∀ m : Buffer → List K,
      for_loop n (fun i mem => mem_write mem Buffer.score_diff i
        ((mem Buffer.score_column).getD i 0)) m =
      Function.update m Buffer.score_diff (for_loop n (fun i l =>
        l.set i ((m Buffer.score_column).getD i 0)) (m Buffer.score_diff)) := by
    intro m
    unfold mem_write
    exact for_loop_update_read n Buffer.score_diff Buffer.score_column (by decide)
      (fun i l l2 => l.set i (l2.getD i 0)) m
  unfold loop_body_mem loop_body
  simp only [hcopy, column_multiplication_mem_eq, scalar_multiplication_mem_eq,
    addition_mem_eq _ Buffer.score_column Buffer.mean_column (by decide),
    addition_mem_eq _ Buffer.score_diff Buffer.score_column (by decide)]
  refine ⟨?_, ?_, ?_, ?_⟩ <;> simp [Function.update]

theorem memory_after_eq (mem : Buffer → List K) (n k : Nat) :
    memory_after mem n k Buffer.link_matrix = mem Buffer.link_matrix ∧
    memory_after mem n k Buffer.mean_column = mem Buffer.mean_column ∧
    memory_after mem n k Buffer.score_column =
      (fun s => (loop_body (mem Buffer.link_matrix) (mem Buffer.mean_column) n s).1)^[k]
        (mem Buffer.score_column) := by
  induction k with
  | zero => exact ⟨rfl, rfl, rfl⟩
  | succ k ih =>
    obtain ⟨h1, h2, h3⟩ := ih
    obtain ⟨g1, g2, g3, _⟩ := loop_body_mem_eq (memory_after mem n k) n
    refine ⟨?_, ?_, ?_⟩
    · show loop_body_mem (memory_after mem n k) n Buffer.link_matrix = _
      rw [g1, h1]
    · show loop_body_mem (memory_after mem n k) n Buffer.mean_column = _
      rw [g2, h2]
    · show loop_body_mem (memory_after mem n k) n Buffer.score_column = _
      rw [g3, h1, h2, h3, Function.iterate_succ_apply']

end Memory

/-! ## Three pages: page 1 links to pages 2 and 3, which link back to page 1 -/

section ThreePages

variable {K : Type} [LinearOrderedField K]

/-- One iteration on the three-page matrix, entry by entry. -/
theorem three_pages_step (M : List K) (d : K)
    (hrow0 : M.getD 0 0 = 0 ∧ M.getD 1 0 = 1 ∧ M.getD 2 0 = 1)
    (hrow1 : M.getD 3 0 = 1 / 2 ∧ M.getD 4 0 = 0 ∧ M.getD 5 0 = 0)
    (hrow2 : M.getD 6 0 = 1 / 2 ∧ M.getD 7 0 = 0 ∧ M.getD 8 0 = 0) (k : Nat) :
    (score_after 3 d M (k + 1)).getD 0 0 =
      (1 - d) * ((score_after 3 d M k).getD 1 0 + (score_after 3 d M k).getD 2 0) + d / 3 ∧
    (score_after 3 d M (k + 1)).getD 1 0 =
      (1 - d) * ((score_after 3 d M k).getD 0 0 / 2) + d / 3 ∧
    (score_after 3 d M (k + 1)).getD 2 0 =
      (1 - d) * ((score_after 3 d M k).getD 0 0 / 2) + d / 3 := by
  obtain ⟨h0, h1, h2⟩ := hrow0
  obtain ⟨h3, h4, h5⟩ := hrow1
  obtain ⟨h6, h7, h8⟩ := hrow2
  refine ⟨?_, ?_, ?_⟩
  · rw [score_after_succ_getD 3 d M k 0 (by norm_num)]
    simp only [Finset.sum_range_succ, Finset.sum_range_zero, zero_mul, zero_add, h0, h1, h2]
    push_cast
    ring
  · rw [score_after_succ_getD 3 d M k 1 (by norm_num)]
    simp only [Finset.sum_range_succ, Finset.sum_range_zero, one_mul, zero_add,
      Nat.reduceAdd, h3, h4, h5]
    push_cast
    ring
  · rw [score_after_succ_getD 3 d M k 2 (by norm_num)]
    simp only [Finset.sum_range_succ, Finset.sum_range_zero, zero_add,
      Nat.reduceMul, Nat.reduceAdd, h6, h7, h8]
    push_cast
    ring

/-- With `WEIGHT` the score of page 1 stays in `[1/3, 2/3)`, the scores of
pages 2 and 3 stay equal, and the mass stays 1. -/
theorem three_pages_invariant (M : List K)
    (hrow0 : M.getD 0 0 = 0 ∧ M.getD 1 0 = 1 ∧ M.getD 2 0 = 1)
    (hrow1 : M.getD 3 0 = 1 / 2 ∧ M.getD 4 0 = 0 ∧ M.getD 5 0 = 0)
    (hrow2 : M.getD 6 0 = 1 / 2 ∧ M.getD 7 0 = 0 ∧ M.getD 8 0 = 0) (k : Nat) :
    (score_after 3 (WEIGHT K) M k).getD 1 0 = (score_after 3 (WEIGHT K) M k).getD 2 0 ∧
    (score_after 3 (WEIGHT K) M k).getD 0 0 + 2 * (score_after 3 (WEIGHT K) M k).getD 1 0 = 1 ∧
    1 / 3 ≤ (score_after 3 (WEIGHT K) M k).getD 0 0 ∧
    (score_after 3 (WEIGHT K) M k).getD 0 0 < 2 / 3 := by
  induction k with
  | zero =>
    simp only [score_after_zero_getD]
    norm_num
  | succ k ih =>
    obtain ⟨hs0, hs1, hs2⟩ := three_pages_step M (WEIGHT K) hrow0 hrow1 hrow2 k
    obtain ⟨hbc, hmass, hlo, hhi⟩ := ih
    rw [hs0, hs1, hs2]
    unfold WEIGHT at *
    refine ⟨rfl, ?_, ?_, ?_⟩
    · linarith
    · linarith
    · linarith

/-- After every iteration page 1 scores above page 2, and pages 2 and 3 score the same. -/
theorem three_pages_order (M : List K)
    (hrow0 : M.getD 0 0 = 0 ∧ M.getD 1 0 = 1 ∧ M.getD 2 0 = 1)
    (hrow1 : M.getD 3 0 = 1 / 2 ∧ M.getD 4 0 = 0 ∧ M.getD 5 0 = 0)
    (hrow2 : M.getD 6 0 = 1 / 2 ∧ M.getD 7 0 = 0 ∧ M.getD 8 0 = 0) (k : Nat) :
    (score_after 3 (WEIGHT K) M (k + 1)).getD 1 0 < (score_after 3 (WEIGHT K) M (k + 1)).getD 0 0 ∧
    (score_after 3 (WEIGHT K) M (k + 1)).getD 1 0 = (score_after 3 (WEIGHT K) M (k + 1)).getD 2 0 := by
  obtain ⟨hs0, hs1, hs2⟩ := three_pages_step M (WEIGHT K) hrow0 hrow1 hrow2 k
  obtain ⟨hbc, hmass, hlo, hhi⟩ := three_pages_invariant M hrow0 hrow1 hrow2 k
  rw [hs0, hs1, hs2]
  unfold WEIGHT at *
  refine ⟨?_, rfl⟩
  linarith

end ThreePages

/-! ## Further facts on the primitives -/

section More

variable {K : Type} [LinearOrderedField K]

theorem getD_map_mul (v : List K) (c : K) (j : Nat) :
    (v.map (fun x => c * x)).getD j 0 = c * v.getD j 0 := by
  by_cases h : j < v.length
  · rw [List.getD_eq_getElem _ _ (by rw [List.length_map]; exact h),
      List.getD_eq_getElem _ _ h, List.getElem_map]
  · rw [getD_of_length_le _ _ (by rw [List.length_map]; omega),
      getD_of_length_le _ _ (by omega), mul_zero]

/-- A list with a repeated element is longer than its list of distinct elements. -/
theorem dedup_length_lt (l : List Int) (h : ¬ l.Nodup) : l.dedup.length < l.length := by
  have hsub : l.dedup.Sublist l := List.dedup_sublist l
  rcases lt_or_eq_of_le hsub.length_le with hlt | heq
  · exact hlt
  · exfalso
    have := hsub.eq_of_length heq
    exact h (List.dedup_eq_self.mp this)

theorem norm_sum_eq_zero_iff (v : List K) :
    norm_sum v v.length = 0 ↔ ∀ x ∈ v, x = 0 := by
  rw [norm_sum_eq, Finset.sum_eq_zero_iff_of_nonneg (fun i _ => sq_nonneg _)]
  constructor
  · intro h x hx
    obtain ⟨i, hi, rfl⟩ := List.getElem_of_mem hx
    have := h i (Finset.mem_range.mpr hi)
    rw [List.getD_eq_getElem _ _ hi] at this
    exact pow_eq_zero_iff (two_ne_zero) |>.mp this
  · intro h i hi
    rw [List.getD_eq_getElem _ _ (Finset.mem_range.mp hi), h _ (List.getElem_mem _)]
    norm_num

end More

/-! ## The claims on the ranking, the primitives and the frame -/

section LaterClaims

/-- C11: for `N = 3` with page 1 linking to pages 2 and 3 and pages 2 and 3
each linking only to page 1, with `d = 0.15` and `ε = 0.0001`, the solver
stops, and the score vector at the iterate where it stops has
`score[page 1] > score[page 2]` and `score[page 2] = score[page 3]`. -/
theorem three_pages_ranking {K : Type} [LinearOrderedField K] [Archimedean K]
    (buffer : List K) (hbuf : buffer.length = 3 * 3) :
    ∃ M : List K, init_link_matrix (some (link_file [[2, 3], [1], [1]])) 3 buffer = .ok M ∧
      (∃ fuel result k, solver 3 (WEIGHT K) (ERROR K) M fuel = some (result, k)) ∧
      ∀ fuel result k, solver 3 (WEIGHT K) (ERROR K) M fuel = some (result, k) →
        result.getD 1 0 < result.getD 0 0 ∧ result.getD 1 0 = result.getD 2 0 := by
  have hspec : ∀ links ∈ ([[2, 3], [1], [1]] : List (List Int)), ∀ p ∈ links,
      1 ≤ p ∧ p ≤ ((3 : Nat) : Int) := by decide
  obtain ⟨M, hM, _, hent⟩ := init_link_matrix_ok 3 [[2, 3], [1], [1]] buffer rfl hbuf hspec
  have hrow0 : M.getD 0 0 = 0 ∧ M.getD 1 0 = 1 ∧ M.getD 2 0 = 1 :=
    ⟨by simpa using hent 0 0 (by decide) (by decide),
     by simpa using hent 0 1 (by decide) (by decide),
     by simpa using hent 0 2 (by decide) (by decide)⟩
  have hrow1 : M.getD 3 0 = 1 / 2 ∧ M.getD 4 0 = 0 ∧ M.getD 5 0 = 0 :=
    ⟨by simpa using hent 1 0 (by decide) (by decide),
     by simpa using hent 1 1 (by decide) (by decide),
     by simpa using hent 1 2 (by decide) (by decide)⟩
  have hrow2 : M.getD 6 0 = 1 / 2 ∧ M.getD 7 0 = 0 ∧ M.getD 8 0 = 0 :=
    ⟨by simpa using hent 2 0 (by decide) (by decide),
     by simpa using hent 2 1 (by decide) (by decide),
     by simpa using hent 2 2 (by decide) (by decide)⟩
  have hcol : ∀ j, j < 3 → ∑ i in Finset.range 3, M.getD (i * 3 + j) 0 ≤ 1 := by
    intro j hj
    rw [built_column_sum_nodup 3 [[2, 3], [1], [1]] M rfl hspec (by decide) hent j hj]
    split <;> norm_num
  refine ⟨M, hM, ?_, ?_⟩
  · exact solver_returns_of_small_step 3 (WEIGHT K) (ERROR K) M
      (exists_small_step 3 (WEIGHT K) (ERROR K) M (by norm_num [WEIGHT]) (by norm_num [WEIGHT])
        (by norm_num [ERROR]) (built_entries_nonneg 3 [[2, 3], [1], [1]] M hent) hcol)
  · intro fuel result k hsolve
    obtain ⟨j, _, _, hres, _, _⟩ :=
      (solver_eq_some_iff 3 (WEIGHT K) (ERROR K) M fuel result k).mp hsolve
    rw [hres]
    exact three_pages_order M hrow0 hrow1 hrow2 j

/-- C11 over the rationals, from a zeroed buffer. -/
theorem three_pages_ranking_witness :
    (List.replicate 9 (0 : ℚ)).length = 3 * 3 ∧
    ∃ M : List ℚ, init_link_matrix (some (link_file [[2, 3], [1], [1]])) 3
        (List.replicate 9 (0 : ℚ)) = .ok M ∧
      (∃ fuel result k, solver 3 (WEIGHT ℚ) (ERROR ℚ) M fuel = some (result, k)) ∧
      ∀ fuel result k, solver 3 (WEIGHT ℚ) (ERROR ℚ) M fuel = some (result, k) →
        result.getD 1 0 < result.getD 0 0 ∧ result.getD 1 0 = result.getD 2 0 :=
  ⟨rfl, three_pages_ranking (List.replicate 9 (0 : ℚ)) rfl⟩

/-- C12: for every score vector of length `N ≥ 1` with strictly positive
entries, `print_standings` prints the ranks `1..N` with the pages a permutation
of `1..N`, each with its original score, in non-increasing order of score and
increasing page order among equal scores, and leaves every entry of the vector
0; for `[0.5, 0.2, 0.3]` the lines are pages 1, 3, 2 with scores 0.5, 0.3, 0.2. -/
theorem print_standings_ranking {K : Type} [LinearOrderedField K] (s : List K) (N : Nat)
    (hN : 1 ≤ N) (hlen : s.length = N) (hpos : ∀ x ∈ s, 0 < x) :
    (print_standings s N).2.map (fun l => l.rank)
      = (List.range N).map (fun i : Nat => (i : Int) + 1) ∧
    List.Perm ((print_standings s N).2.map (fun l => l.page))
      ((List.range N).map (fun j : Nat => (j : Int) + 1)) ∧
    (∀ l ∈ (print_standings s N).2, l.score = s.getD (l.page - 1).toNat 0) ∧
    (print_standings s N).2.Pairwise
      (fun a b => b.score < a.score ∨ (b.score = a.score ∧ a.page < b.page)) ∧
    (print_standings s N).1 = List.replicate N 0 ∧
    print_standings ([1 / 2, 1 / 5, 3 / 10] : List K) 3 =
      ([0, 0, 0], [⟨1, 1, 1 / 2⟩, ⟨2, 3, 3 / 10⟩, ⟨3, 2, 1 / 5⟩]) := by
  have _ := hN
  obtain ⟨h1, h2, h3, h4, h5⟩ := print_standings_positive s N hlen hpos
  refine ⟨h2, h3, h4, h5, h1, ?_⟩
  have t2 : Int.toNat 2 = 2 := rfl
  have t1 : Int.toNat 1 = 1 := rfl
  norm_num [print_standings, standings_step, select_max, for_loop, List.range_succ, t1, t2]

/-- C12 at `[0.5, 0.5, 0.3, 0.5]`, with equal scores. -/
theorem print_standings_ranking_witness :
    1 ≤ 4 ∧ ([1 / 2, 1 / 2, 3 / 10, 1 / 2] : List ℚ).length = 4 ∧
    (∀ x ∈ ([1 / 2, 1 / 2, 3 / 10, 1 / 2] : List ℚ), 0 < x) ∧
    ((print_standings ([1 / 2, 1 / 2, 3 / 10, 1 / 2] : List ℚ) 4).2.map (fun l => l.rank)
      = (List.range 4).map (fun i : Nat => (i : Int) + 1) ∧
    List.Perm ((print_standings ([1 / 2, 1 / 2, 3 / 10, 1 / 2] : List ℚ) 4).2.map
        (fun l => l.page))
      ((List.range 4).map (fun j : Nat => (j : Int) + 1)) ∧
    (∀ l ∈ (print_standings ([1 / 2, 1 / 2, 3 / 10, 1 / 2] : List ℚ) 4).2,
      l.score = ([1 / 2, 1 / 2, 3 / 10, 1 / 2] : List ℚ).getD (l.page - 1).toNat 0) ∧
    (print_standings ([1 / 2, 1 / 2, 3 / 10, 1 / 2] : List ℚ) 4).2.Pairwise
      (fun a b => b.score < a.score ∨ (b.score = a.score ∧ a.page < b.page)) ∧
    (print_standings ([1 / 2, 1 / 2, 3 / 10, 1 / 2] : List ℚ) 4).1 = List.replicate 4 0 ∧
    print_standings ([1 / 2, 1 / 5, 3 / 10] : List ℚ) 3 =
      ([0, 0, 0], [⟨1, 1, 1 / 2⟩, ⟨2, 3, 3 / 10⟩, ⟨3, 2, 1 / 5⟩])) :=
  have hpos : ∀ x ∈ ([1 / 2, 1 / 2, 3 / 10, 1 / 2] : List ℚ), 0 < x := by
    intro x hx
    simp only [List.mem_cons, List.mem_singleton, List.not_mem_nil, or_false] at hx
    rcases hx with h | h | h | h <;> (subst h; norm_num)
  ⟨by decide, rfl, hpos,
    print_standings_ranking [1 / 2, 1 / 2, 3 / 10, 1 / 2] 4 (by decide) rfl hpos⟩

/-- C13 fails on the code when a score is 0: on `[0.5, 0, 0]` the first pass
picks page 1 and clears it, and every later pass finds all entries equal to 0
and picks the first of them, page 1 again; the three lines all name page 1. -/
theorem print_standings_repeats_page :
    (∀ x ∈ ([1 / 2, 0, 0] : List ℚ), 0 ≤ x) ∧
    print_standings ([1 / 2, 0, 0] : List ℚ) 3 =
      ([0, 0, 0], [⟨1, 1, 1 / 2⟩, ⟨2, 1, 0⟩, ⟨3, 1, 0⟩]) := by
  refine ⟨?_, ?_⟩
  · intro x hx
    simp only [List.mem_cons, List.mem_singleton, List.not_mem_nil, or_false] at hx
    rcases hx with h | h | h <;> (subst h; norm_num)
  · norm_num [print_standings, standings_step, select_max, for_loop, List.range_succ]

/-- C14: `column_multiplication` is linear in its vector argument: for every
`N × N` matrix `M`, every vector `v` of length `N` and every scalar `k`,
running it on `k * v` gives `k` times the vector obtained by running it on `v`. -/
theorem column_multiplication_linear {K : Type} [LinearOrderedField K] (N : Nat)
    (M v : List K) (k : K) (hM : M.length = N * N) (hv : v.length = N) :
    column_multiplication M N N (v.map (fun x => k * x)) =
      (column_multiplication M N N v).map (fun x => k * x) := by
  have _ := hM
  apply ext_getD
  · rw [column_multiplication_length, List.length_map, List.length_map,
      column_multiplication_length]
  · intro x hx
    rw [column_multiplication_length, List.length_map, hv] at hx
    rw [getD_map_mul, column_multiplication_getD, column_multiplication_getD, List.length_map,
      hv]
    simp only [hx, and_self, if_true]
    rw [Finset.mul_sum]
    apply Finset.sum_congr rfl
    intro j _
    rw [getD_map_mul]
    ring

/-- C14 at a `2 × 2` matrix, the vector `[5, 7]` and the scalar 3. -/
theorem column_multiplication_linear_witness :
    ([1, 2, 3, 4] : List ℚ).length = 2 * 2 ∧ ([5, 7] : List ℚ).length = 2 ∧
    column_multiplication ([1, 2, 3, 4] : List ℚ) 2 2 (([5, 7] : List ℚ).map (fun x => 3 * x)) =
      (column_multiplication ([1, 2, 3, 4] : List ℚ) 2 2 [5, 7]).map (fun x => 3 * x) :=
  ⟨rfl, rfl, column_multiplication_linear 2 [1, 2, 3, 4] [5, 7] 3 rfl rfl⟩

/-- C15: for every vector `v` of length `n ≥ 0`, `norm(v, n)` is the square
root of the sum of the squares of its entries, is non-negative, and is 0 if
and only if every entry of `v` is 0. -/
theorem norm_is_euclidean (v : List ℝ) :
    norm v v.length = Real.sqrt (∑ i in Finset.range v.length, v.getD i 0 ^ 2) ∧
    0 ≤ norm v v.length ∧
    (norm v v.length = 0 ↔ ∀ x ∈ v, x = 0) := by
  refine ⟨?_, ?_, ?_⟩
  · unfold norm
    rw [norm_sum_eq]
  · exact Real.sqrt_nonneg _
  · unfold norm
    rw [Real.sqrt_eq_zero (norm_sum_nonneg v v.length), norm_sum_eq_zero_iff]

end LaterClaims

/-! ## The claims on the frame, the positivity and the column sums -/

section FrameClaims

/-- C16: every iteration of the solver loop of `main` leaves the weighted link
matrix and the weighted mean column unchanged: after any number `k` of
executions of the loop body, and so at convergence, both arrays hold the
values they held right after the one-time weighting, while `score_column`
holds the iterate `s_k`; `column_multiplication` does not modify its matrix
argument and `addition` does not modify its second argument. -/
theorem loop_keeps_weighted_buffers {K : Type} [LinearOrderedField K] (N : Nat) (d : K)
    (M : List K) (mem : Buffer → List K)
    (hW : mem Buffer.link_matrix = weighted_matrix N d M)
    (hmean : mem Buffer.mean_column = weighted_mean N d)
    (hscore : mem Buffer.score_column = (init_columns N).2) :
    (∀ k, memory_after mem N k Buffer.link_matrix = weighted_matrix N d M ∧
      memory_after mem N k Buffer.mean_column = weighted_mean N d ∧
      memory_after mem N k Buffer.score_column = score_after N d M k) ∧
    (∀ (ε : K) (fuel : Nat) (result : List K) (k : Nat),
      solver N d ε M fuel = some (result, k) →
        memory_after mem N k Buffer.link_matrix = weighted_matrix N d M ∧
        memory_after mem N k Buffer.mean_column = weighted_mean N d ∧
        memory_after mem N k Buffer.score_column = result) ∧
    (∀ (m : Buffer → List K) (matrix column : Buffer) (r c : Nat), matrix ≠ column →
      column_multiplication_mem m matrix r c column matrix = m matrix) ∧
    (∀ (m : Buffer → List K) (matrix1 matrix2 : Buffer) (r c : Nat), matrix2 ≠ matrix1 →
      addition_mem m matrix1 matrix2 r c matrix2 = m matrix2) := by
  have hall : ∀ k, memory_after mem N k Buffer.link_matrix = weighted_matrix N d M ∧
      memory_after mem N k Buffer.mean_column = weighted_mean N d ∧
      memory_after mem N k Buffer.score_column = score_after N d M k := by
    intro k
    obtain ⟨h1, h2, h3⟩ := memory_after_eq mem N k
    refine ⟨by rw [h1, hW], by rw [h2, hmean], ?_⟩
    rw [h3, hW, hmean, hscore, score_after_eq_iterate]
  refine ⟨hall, ?_, ?_, ?_⟩
  · intro ε fuel result k hsolve
    obtain ⟨j, hk, _, hres, _, _⟩ := (solver_eq_some_iff N d ε M fuel result k).mp hsolve
    obtain ⟨h1, h2, h3⟩ := hall k
    refine ⟨h1, h2, ?_⟩
    rw [h3, hres, hk]
  · intro m matrix column r c hne
    rw [column_multiplication_mem_eq, Function.update_noteq hne]
  · intro m matrix1 matrix2 r c hne
    rw [addition_mem_eq m matrix1 matrix2 hne, Function.update_noteq hne]

/-- C16 on the memory of `main` for the two-page cycle with `d = 0.15`, the
array `score_diff` holding arbitrary values. -/
theorem loop_keeps_weighted_buffers_witness :
    ∃ mem : Buffer → List ℚ,
      mem Buffer.link_matrix = weighted_matrix 2 (15 / 100) [0, 1, 1, 0] ∧
      mem Buffer.mean_column = weighted_mean 2 (15 / 100) ∧
      mem Buffer.score_column = (init_columns 2).2 ∧
      mem Buffer.score_diff = [9, 9] ∧
      ((∀ k, memory_after mem 2 k Buffer.link_matrix = weighted_matrix 2 (15 / 100) [0, 1, 1, 0] ∧
        memory_after mem 2 k Buffer.mean_column = weighted_mean 2 (15 / 100) ∧
        memory_after mem 2 k Buffer.score_column = score_after 2 (15 / 100) [0, 1, 1, 0] k) ∧
      (∀ (ε : ℚ) (fuel : Nat) (result : List ℚ) (k : Nat),
        solver 2 (15 / 100) ε [0, 1, 1, 0] fuel = some (result, k) →
          memory_after mem 2 k Buffer.link_matrix = weighted_matrix 2 (15 / 100) [0, 1, 1, 0] ∧
          memory_after mem 2 k Buffer.mean_column = weighted_mean 2 (15 / 100) ∧
          memory_after mem 2 k Buffer.score_column = result) ∧
      (∀ (m : Buffer → List ℚ) (matrix column : Buffer) (r c : Nat), matrix ≠ column →
        column_multiplication_mem m matrix r c column matrix = m matrix) ∧
      (∀ (m : Buffer → List ℚ) (matrix1 matrix2 : Buffer) (r c : Nat), matrix2 ≠ matrix1 →
        addition_mem m matrix1 matrix2 r c matrix2 = m matrix2)) :=
  ⟨fun b => match b with
      | Buffer.link_matrix => weighted_matrix 2 (15 / 100) [0, 1, 1, 0]
      | Buffer.mean_column => weighted_mean 2 (15 / 100)
      | Buffer.score_column => (init_columns 2).2
      | Buffer.score_diff => [9, 9],
    rfl, rfl, rfl, rfl,
    loop_keeps_weighted_buffers 2 (15 / 100) [0, 1, 1, 0] _ rfl rfl rfl⟩

/-- C17: for every pair of distinct arrays `matrix1` and `matrix2` of the same
shape `R × C`, `addition` sets `matrix1[i]` to the old `matrix1[i] + matrix2[i]`
for every `i < R * C`, leaves `matrix2` unchanged and leaves the length of
`matrix1` unchanged; the new content of `matrix1` is the result of `addition`
on the two contents. -/
theorem addition_in_place {K : Type} [LinearOrderedField K] {P : Type} [DecidableEq P]
    (mem : P → List K) (matrix1 matrix2 : P) (R C : Nat) (hdistinct : matrix1 ≠ matrix2)
    (h1 : (mem matrix1).length = R * C) (h2 : (mem matrix2).length = R * C) :
    (∀ i, i < R * C → (addition_mem mem matrix1 matrix2 R C matrix1).getD i 0 =
      (mem matrix1).getD i 0 + (mem matrix2).getD i 0) ∧
    addition_mem mem matrix1 matrix2 R C matrix2 = mem matrix2 ∧
    (addition_mem mem matrix1 matrix2 R C matrix1).length = (mem matrix1).length ∧
    addition_mem mem matrix1 matrix2 R C matrix1 = addition (mem matrix1) (mem matrix2) R C := by
  have _ := h2
  rw [addition_mem_eq mem matrix1 matrix2 (Ne.symm hdistinct)]
  refine ⟨?_, ?_, ?_, ?_⟩
  · intro i hi
    rw [Function.update_same, addition_getD, if_pos ⟨hi, by rw [h1]; exact hi⟩]
  · rw [Function.update_noteq (Ne.symm hdistinct)]
  · rw [Function.update_same, addition_length]
  · rw [Function.update_same]

/-- C17 on two arrays of shape `2 × 1`, named by the two booleans. -/
theorem addition_in_place_witness :
    ∃ mem : Bool → List ℚ, mem true = [1, 2] ∧ mem false = [10, 20] ∧ true ≠ false ∧
      (mem true).length = 2 * 1 ∧ (mem false).length = 2 * 1 ∧
      ((∀ i, i < 2 * 1 → (addition_mem mem true false 2 1 true).getD i 0 =
        (mem true).getD i 0 + (mem false).getD i 0) ∧
      addition_mem mem true false 2 1 false = mem false ∧
      (addition_mem mem true false 2 1 true).length = (mem true).length ∧
      addition_mem mem true false 2 1 true = addition (mem true) (mem false) 2 1) :=
  ⟨fun b => match b with
      | true => [1, 2]
      | false => [10, 20],
    rfl, rfl, by decide, rfl, rfl,
    addition_in_place _ true false 2 1 (by decide) rfl rfl⟩

/-- C19: in exact arithmetic, for every `N ≥ 1`, `d` in `(0, 1)` and link
matrix with non-negative entries, every entry of the score vector after every
loop iteration `k ≥ 1` is at least `d / N`, hence strictly positive; so the
vector the solver hands to `print_standings` has strictly positive entries,
and `print_standings` reports every page of `1..N` exactly once on it. -/
theorem scores_positive_for_ranking {K : Type} [LinearOrderedField K] (N : Nat) (d : K)
    (M : List K) (hN : 1 ≤ N) (hd0 : 0 < d) (hd1 : d < 1)
    (hnonneg : ∀ i j, i < N → j < N → 0 ≤ M.getD (i * N + j) 0) :
    (∀ k, 1 ≤ k → ∀ i, i < N →
      d / (N : K) ≤ (score_after N d M k).getD i 0 ∧ 0 < (score_after N d M k).getD i 0) ∧
    (∀ (ε : K) (fuel : Nat) (result : List K) (k : Nat),
      solver N d ε M fuel = some (result, k) →
        (∀ x ∈ result, 0 < x) ∧
        List.Perm ((print_standings result N).2.map (fun l => l.page))
          ((List.range N).map (fun j : Nat => (j : Int) + 1))) := by
  have _ := hN
  refine ⟨?_, ?_⟩
  · intro k hk i hi
    obtain ⟨k', rfl⟩ : ∃ k', k = k' + 1 := ⟨k - 1, by omega⟩
    exact ⟨score_after_succ_ge N d M hd0 hd1 hnonneg k' i hi,
      score_after_pos N d M hd0 hd1 hnonneg (k' + 1) i hi⟩
  · intro ε fuel result k hsolve
    obtain ⟨j, _, _, hres, _, _⟩ := (solver_eq_some_iff N d ε M fuel result k).mp hsolve
    have hlen : result.length = N := by rw [hres, score_after_length]
    have hpos : ∀ x ∈ result, 0 < x := by
      intro x hx
      obtain ⟨i, hi, rfl⟩ := List.getElem_of_mem hx
      rw [← List.getD_eq_getElem _ 0 hi, hres]
      exact score_after_pos N d M hd0 hd1 hnonneg (j + 1) i (by rw [← hlen]; exact hi)
    exact ⟨hpos, (print_standings_positive result N hlen hpos).2.2.1⟩

/-- C19 on a `2 × 2` matrix with a dangling second page, with `d = 0.15`. -/
theorem scores_positive_for_ranking_witness :
    1 ≤ 2 ∧ (0 : ℚ) < 15 / 100 ∧ (15 / 100 : ℚ) < 1 ∧
    (∀ i j, i < 2 → j < 2 → 0 ≤ ([0, 0, 1, 0] : List ℚ).getD (i * 2 + j) 0) ∧
    ((∀ k, 1 ≤ k → ∀ i, i < 2 →
      (15 / 100 : ℚ) / ((2 : Nat) : ℚ) ≤ (score_after 2 (15 / 100) [0, 0, 1, 0] k).getD i 0 ∧
      0 < (score_after 2 (15 / 100) ([0, 0, 1, 0] : List ℚ) k).getD i 0) ∧
    (∀ (ε : ℚ) (fuel : Nat) (result : List ℚ) (k : Nat),
      solver 2 (15 / 100) ε [0, 0, 1, 0] fuel = some (result, k) →
        (∀ x ∈ result, 0 < x) ∧
        List.Perm ((print_standings result 2).2.map (fun l => l.page))
          ((List.range 2).map (fun j : Nat => (j : Int) + 1)))) :=
  have hnonneg : ∀ i j, i < 2 → j < 2 → 0 ≤ ([0, 0, 1, 0] : List ℚ).getD (i * 2 + j) 0 := by
    intro i j hi hj
    interval_cases i <;> interval_cases j <;> norm_num
  ⟨by decide, by norm_num, by norm_num, hnonneg,
    scores_positive_for_ranking 2 (15 / 100) [0, 0, 1, 0] (by decide) (by norm_num)
      (by norm_num) hnonneg⟩

/-- C20: for every `N` and every link specification with destinations in
`[1, N]`, column `j` of the matrix built by `init_link_matrix` sums to the
number of distinct destinations listed by page `j` over the count `k_j` given
for page `j` (0 for a page with `k_j = 0`, whose column is zero): a repeated
destination is written once with value `1 / k_j`, not accumulated, so the
column of a page that repeats a destination sums to strictly less than 1. -/
theorem built_column_sum_counts_distinct {K : Type} [LinearOrderedField K] (N : Nat)
    (spec : List (List Int)) (buffer : List K)
    (hN : spec.length = N) (hbuf : buffer.length = N * N)
    (hspec : ∀ links ∈ spec, ∀ p ∈ links, 1 ≤ p ∧ p ≤ (N : Int)) :
    ∃ M : List K, init_link_matrix (some (link_file spec)) N buffer = .ok M ∧
      ∀ j, j < N →
        ∑ i in Finset.range N, M.getD (i * N + j) 0 =
          ((spec.getD j []).dedup.length : K) / ((spec.getD j []).length : K) ∧
        (¬ (spec.getD j []).Nodup → ∑ i in Finset.range N, M.getD (i * N + j) 0 < 1) := by
  obtain ⟨M, hM, _, hent⟩ := init_link_matrix_ok N spec buffer hN hbuf hspec
  refine ⟨M, hM, fun j hj => ?_⟩
  have hsum := built_column_sum N spec M hN hspec hent j hj
  refine ⟨hsum, fun hdup => ?_⟩
  rw [hsum]
  have hlt := dedup_length_lt (spec.getD j []) hdup
  have hpos : (0 : K) < ((spec.getD j []).length : K) := Nat.cast_pos.mpr (by omega)
  rw [div_lt_one hpos]
  exact Nat.cast_lt.mpr hlt

/-- C20 at two pages, the first listing destination 2 twice. -/
theorem built_column_sum_counts_distinct_witness :
    ([[2, 2], [1]] : List (List Int)).length = 2 ∧ ([0, 0, 0, 0] : List ℚ).length = 2 * 2 ∧
    (∀ links ∈ ([[2, 2], [1]] : List (List Int)), ∀ p ∈ links, 1 ≤ p ∧ p ≤ ((2 : Nat) : Int)) ∧
    ∃ M : List ℚ, init_link_matrix (some (link_file [[2, 2], [1]])) 2 [0, 0, 0, 0] = .ok M ∧
      ∀ j, j < 2 →
        ∑ i in Finset.range 2, M.getD (i * 2 + j) 0 =
          ((([[2, 2], [1]] : List (List Int)).getD j []).dedup.length : ℚ) /
            ((([[2, 2], [1]] : List (List Int)).getD j []).length : ℚ) ∧
        (¬ (([[2, 2], [1]] : List (List Int)).getD j []).Nodup →
          ∑ i in Finset.range 2, M.getD (i * 2 + j) 0 < 1) :=
  ⟨rfl, rfl, by decide,
    built_column_sum_counts_distinct 2 [[2, 2], [1]] [0, 0, 0, 0] rfl rfl (by decide)⟩

end FrameClaims

end PageRank
